import Mathlib

/-!
Verification of the mealpreplogic-mobile core against its specification.

Shallow embedding conventions, used throughout this file:
* JavaScript strings are embedded as `List Char` (abbreviated `Str`); the
  regular-expression stages of the ingredient parser and name normalizer are
  hand-compiled to recursive functions with the same matching semantics
  (leftmost match, ordered alternation with backtracking, greedy quantifiers).
* JavaScript numbers are embedded as `JSNum`, rationals extended with the
  special values NaN, Infinity and -Infinity, so that the division corner
  cases of the quantity parser (for example a zero denominator) are kept.
  Ordinary float rounding is abstracted away: all other arithmetic is exact
  rational arithmetic, matching the "up to floating rounding" reading used by
  the specification.
* ISO timestamp strings compared with the JavaScript string operators are
  embedded as natural numbers (lexicographic order on ISO-8601 strings agrees
  with chronological order); the epoch string "1970-01-01" is 0.
* The GLPK backend of the meal-plan solver is abstracted as an oracle
  function; randomness in the reroll engine is an explicit parameter.
-/

abbrev Str := List Char

/-- Shorthand to turn a Lean string literal into the `List Char` model. -/
def strOf (s : String) : Str := s.data

/-- JavaScript whitespace as used by trim, the \s class and split. -/
def isWsChar (c : Char) : Bool :=
  c = ' ' || c = '\t' || c = '\n' || c = '\r' || c = '\x0b' || c = '\x0c'

/-- JavaScript word character class \w = [A-Za-z0-9_]. -/
def isWordChar (c : Char) : Bool :=
  c.isAlpha || c.isDigit || c = '_'

/-- Drop trailing whitespace (the right half of String.prototype.trim). -/
def dropTrailingWs (cs : Str) : Str :=
  (cs.reverse.dropWhile isWsChar).reverse

/-- String.prototype.trim: drop leading and trailing whitespace. -/
def trimStr (cs : Str) : Str :=
  dropTrailingWs (cs.dropWhile isWsChar)

/-- Lowercase every character (String.prototype.toLowerCase on ASCII data). -/
def toLowerStr (cs : Str) : Str := cs.map Char.toLower

/-- Exact (case sensitive) prefix test. -/
def startsWithStr : Str → Str → Bool
  | [], _ => true
  | _ :: _, [] => false
  | p :: ps, c :: cs => p = c && startsWithStr ps cs

/-- Case sensitive prefix removal: the remainder after the prefix. -/
def stripPrefixCS : Str → Str → Option Str
  | [], cs => some cs
  | _ :: _, [] => none
  | p :: ps, c :: cs => if p = c then stripPrefixCS ps cs else none

/-- Case insensitive prefix removal (pattern is lowercase, input arbitrary),
mirroring a regex literal under the i flag. -/
def stripPrefixCI : Str → Str → Option Str
  | [], cs => some cs
  | _ :: _, [] => none
  | p :: ps, c :: cs => if c.toLower = p then stripPrefixCI ps cs else none

/-- Substring containment (String.prototype.includes), case sensitive. -/
def containsSub (needle : Str) : Str → Bool
  | [] => needle = []
  | c :: rest => startsWithStr needle (c :: rest) || containsSub needle rest

/-- First-match association lookup over `List Char` keys (a JS object used as
a dictionary; duplicate keys in construction order behave identically for
the tables in shopping.ts because the later binding never changes a value). -/
def lookupStr (table : List (Str × Str)) (k : Str) : Option Str :=
  (table.find? (fun p => p.1 = k)).map (·.2)

-- ---------------------------------------------------------------------------
-- JavaScript numbers for ingredient quantities
-- ---------------------------------------------------------------------------

/-- JavaScript number abstraction: exact rationals plus NaN and infinities. -/
inductive JSNum where
  | fin : ℚ → JSNum
  | posInf : JSNum
  | negInf : JSNum
  | nan : JSNum
deriving DecidableEq

/-- JavaScript addition on `JSNum`. -/
def jsAdd : JSNum → JSNum → JSNum
  | JSNum.nan, _ => JSNum.nan
  | _, JSNum.nan => JSNum.nan
  | JSNum.posInf, JSNum.negInf => JSNum.nan
  | JSNum.negInf, JSNum.posInf => JSNum.nan
  | JSNum.posInf, _ => JSNum.posInf
  | _, JSNum.posInf => JSNum.posInf
  | JSNum.negInf, _ => JSNum.negInf
  | _, JSNum.negInf => JSNum.negInf
  | JSNum.fin a, JSNum.fin b => JSNum.fin (a + b)

/-- JavaScript division of two nonnegative integers (parseFloat values of the
digit strings of a fraction): n/0 is Infinity for n > 0 and NaN for n = 0. -/
def jsDivNat (n d : ℕ) : JSNum :=
  if d = 0 then (if n = 0 then JSNum.nan else JSNum.posInf)
  else JSNum.fin ((n : ℚ) / (d : ℚ))

/-- Multiplication of a `JSNum` by an exact rational scale factor. -/
def jsMulQ : JSNum → ℚ → JSNum
  | JSNum.nan, _ => JSNum.nan
  | JSNum.posInf, q =>
      bif decide (0 < q) then JSNum.posInf
      else bif decide (q = 0) then JSNum.nan else JSNum.negInf
  | JSNum.negInf, q =>
      bif decide (0 < q) then JSNum.negInf
      else bif decide (q = 0) then JSNum.nan else JSNum.posInf
  | JSNum.fin a, q => JSNum.fin (a * q)

/-- The JavaScript comparison x > 0 (false on NaN). -/
def jsPos : JSNum → Bool
  | JSNum.fin a => decide (0 < a)
  | JSNum.posInf => true
  | JSNum.negInf => false
  | JSNum.nan => false

/-- Math.round(q * 100) / 100 (rounding half toward positive infinity). -/
def jsRound2 : JSNum → JSNum
  | JSNum.fin a => JSNum.fin ((⌊a * 100 + 1/2⌋ : ℤ) / (100 : ℚ))
  | JSNum.posInf => JSNum.posInf
  | JSNum.negInf => JSNum.negInf
  | JSNum.nan => JSNum.nan

instance : Add JSNum := ⟨jsAdd⟩

instance : Zero JSNum := ⟨JSNum.fin 0⟩

theorem jsAdd_assoc (a b c : JSNum) : jsAdd (jsAdd a b) c = jsAdd a (jsAdd b c) := by
  cases a <;> cases b <;> cases c <;> simp [jsAdd] <;> ring

theorem jsAdd_comm (a b : JSNum) : jsAdd a b = jsAdd b a := by
  cases a <;> cases b <;> simp [jsAdd] <;> ring

theorem jsAdd_zero (a : JSNum) : jsAdd a (JSNum.fin 0) = a := by
  cases a <;> simp [jsAdd]

theorem jsZero_add (a : JSNum) : jsAdd (JSNum.fin 0) a = a := by
  cases a <;> simp [jsAdd]

instance : AddCommMonoid JSNum where
  add_assoc := jsAdd_assoc
  zero_add := jsZero_add
  add_zero := jsAdd_zero
  add_comm := jsAdd_comm
  nsmul := nsmulRec

theorem jsAdd_eq_add (a b : JSNum) : jsAdd a b = a + b := rfl

-- ---------------------------------------------------------------------------
-- shopping.ts: tables
-- ---------------------------------------------------------------------------

/-- _CATEGORY_KEYWORDS of shopping.ts, in object insertion order. -/
def CATEGORY_KEYWORDS : List (Str × List Str) :=
  [ (strOf "produce",
      ["lettuce", "tomato", "onion", "garlic", "pepper", "carrot", "broccoli",
       "spinach", "kale", "avocado", "lemon", "lime", "banana", "apple",
       "berry", "berries", "celery", "cucumber", "potato", "mushroom",
       "zucchini", "squash", "corn", "peas", "beans", "ginger", "cilantro",
       "parsley", "basil", "mint", "fruit", "vegetable"].map strOf),
    (strOf "protein",
      ["chicken", "beef", "pork", "turkey", "salmon", "fish", "shrimp",
       "tofu", "egg", "eggs", "bacon", "sausage", "steak", "ground"].map strOf),
    (strOf "dairy",
      ["milk", "cheese", "yogurt", "butter", "cream", "sour cream",
       "mozzarella", "cheddar", "parmesan"].map strOf),
    (strOf "grains",
      ["rice", "pasta", "bread", "flour", "oats", "cereal", "tortilla",
       "noodle", "quinoa", "couscous"].map strOf),
    (strOf "pantry",
      ["oil", "vinegar", "sauce", "salt", "pepper", "sugar", "honey",
       "spice", "cumin", "paprika", "cinnamon", "vanilla", "broth",
       "stock", "can", "canned", "dried"].map strOf) ]

/-- _PLURAL_UNITS of shopping.ts (singular, plural) in insertion order. -/
def PLURAL_UNITS : List (Str × Str) :=
  [ ("cup", "cups"), ("tbsp", "tbsp"), ("tsp", "tsp"), ("oz", "oz"),
    ("lb", "lbs"), ("g", "g"), ("kg", "kg"), ("ml", "ml"), ("can", "cans"),
    ("clove", "cloves"), ("slice", "slices"), ("piece", "pieces"),
    ("bunch", "bunches"), ("liter", "liters"), ("tablespoon", "tablespoons"),
    ("teaspoon", "teaspoons"), ("ounce", "ounces"), ("pound", "pounds"),
    ("gram", "grams") ].map (fun p => (strOf p.1, strOf p.2))

/-- UNIT_NORMALIZE of shopping.ts: plural → singular pairs derived from
PLURAL_UNITS plus the three explicit extra entries.  (The explicit lbs → lb
entry repeats the derived one with the same value, so first-match lookup over
this list is the same function as the JS object.) -/
def UNIT_NORMALIZE : List (Str × Str) :=
  (PLURAL_UNITS.filter (fun p => p.2 ≠ p.1)).map (fun p => (p.2, p.1)) ++
    [ (strOf "lbs", strOf "lb"), (strOf "tbsps", strOf "tbsp"),
      (strOf "tsps", strOf "tsp") ]

/-- _IRREGULAR_PLURALS of shopping.ts. -/
def IRREGULAR_PLURALS : List (Str × Str) :=
  [ ("leaves", "leaf"), ("halves", "half"), ("loaves", "loaf"),
    ("calves", "calf"), ("shelves", "shelf"), ("knives", "knife")
  ].map (fun p => (strOf p.1, strOf p.2))

/-- _UNICODE_FRACTIONS of shopping.ts (single-character keys). -/
def UNICODE_FRACTIONS : List (Char × ℚ) :=
  [ ('½', 1/2), ('⅓', 1/3), ('⅔', 2/3), ('¼', 1/4),
    ('¾', 3/4), ('⅛', 1/8), ('⅜', 3/8), ('⅝', 5/8),
    ('⅞', 7/8), ('⅕', 1/5), ('⅖', 2/5), ('⅗', 3/5),
    ('⅘', 4/5), ('⅙', 1/6), ('⅚', 5/6) ]

/-- Value of a unicode vulgar-fraction character, if it is one. -/
def fracVal (c : Char) : Option ℚ :=
  (UNICODE_FRACTIONS.find? (fun p => p.1 = c)).map (·.2)

/-- _STRIP_WORDS of shopping.ts. -/
def STRIP_WORDS : List Str :=
  [ "large", "medium", "small", "extra-large", "thin", "thick",
    "diced", "chopped", "minced", "sliced", "shredded", "grated",
    "crushed", "ground", "mashed", "julienned", "cubed", "halved",
    "quartered", "torn", "peeled", "trimmed", "deveined", "deboned",
    "softened", "melted", "divided", "packed", "sifted",
    "beaten", "whisked", "scrambled",
    "rinsed", "drained", "strained", "wrung",
    "undrained", "unpeeled", "uncooked", "unskinned", "untrimmed",
    "pitted", "seeded", "cored", "deseeded", "stemmed",
    "toasted", "roasted", "blanched", "steamed",
    "warmed", "cooled", "chilled",
    "squeezed", "juiced", "zested", "pressed",
    "zest",
    "removed", "excess", "liquid", "casing", "casings",
    "cut", "split", "cleaned", "washed", "patted", "dry",
    "finely", "roughly", "thinly", "firmly", "gently", "well", "freshly",
    "lightly", "coarsely", "loosely", "tightly",
    "end", "ends", "stem", "stems", "top", "tops", "tip", "tips",
    "each",
    "fresh", "frozen", "dried", "canned", "cooked", "raw", "ripe",
    "warm", "cold", "hot", "room-temperature", "thawed",
    "boneless", "skinless", "bone-in", "skin-on",
    "optional", "about", "approximately",
    "unsalted", "salted", "unsweetened", "sweetened",
    "of", "into", "for", "the", "and", "or", "with" ].map strOf

/-- _SKIP_INGREDIENTS of shopping.ts. -/
def SKIP_INGREDIENTS : List Str :=
  [ "water", "ice", "ice cube", "ice water", "boiling water", "warm water",
    "cold water", "hot water", "tap water",
    "salt pepper", "cooking spray", "nonstick spray" ].map strOf

/-- The fixed alternatives of the _TRAILING_PHRASES alternation (the two
parametric alternatives, for \w+ and like \w+, are handled separately). -/
def TRAILING_FIXED : List Str :=
  [ "to taste", "divided", "or more", "or to taste",
    "as needed", "plus more", "at room temperature", "room temperature",
    "cut into", "sliced into", "torn into", "broken into",
    "such as", "preferably", "if available", "store-bought" ].map strOf

-- ---------------------------------------------------------------------------
-- shopping.ts: regex stage 1 of normalizeName and parseIngredient:
-- name.replace(/\(.*?\)/g, "")
-- ---------------------------------------------------------------------------

/-- Worker for the global removal of parenthesized substrings.  The first
component is `some buf` while scanning inside a candidate group that opened
with a parenthesis; `buf` holds the scanned characters in reverse.  Because
the dot of the regex does not match a newline, a newline aborts the
candidate group and its characters are kept literally. -/
def removeParensAux : Option Str → Str → Str
  | none, [] => []
  | some buf, [] => buf.reverse
  | none, c :: rest =>
      if c = '(' then removeParensAux (some [c]) rest
      else c :: removeParensAux none rest
  | some buf, c :: rest =>
      if c = ')' then removeParensAux none rest
      else if c = '\n' then buf.reverse ++ '\n' :: removeParensAux none rest
      else removeParensAux (some (c :: buf)) rest

/-- name.replace(/\(.*?\)/g, ""): non-greedy removal of parenthesized runs. -/
def removeParens (cs : Str) : Str := removeParensAux none cs

-- ---------------------------------------------------------------------------
-- shopping.ts: regex stage 2 of normalizeName: _TRAILING_PHRASES
-- ---------------------------------------------------------------------------

/-- Case insensitive match of a fixed phrase at the head of the input,
followed by the word-boundary and .*$ tail of the trailing-phrases regex:
after the phrase the next character must not be a word character, and the
rest of the input must contain no newline (otherwise $ cannot match). -/
def tpFixedOk (phrase cs : Str) : Bool :=
  match stripPrefixCI phrase cs with
  | some rest =>
      (match rest with
       | [] => true
       | c :: _ => !isWordChar c) && rest.all (fun c => c ≠ '\n')
  | none => false

/-- Case insensitive match of "for \w+" or "like \w+" (keyword, then one
space, then at least one word character) with the same tail conditions. -/
def tpKeywordOk (kw cs : Str) : Bool :=
  match stripPrefixCI kw cs with
  | some rest =>
      match rest with
      | ' ' :: rest2 =>
          let w := rest2.takeWhile isWordChar
          let after := rest2.dropWhile isWordChar
          !w.isEmpty && after.all (fun c => c ≠ '\n')
      | _ => false
  | none => false

/-- Does some alternative of the trailing-phrases alternation match here? -/
def tpAnyAt (cs : Str) : Bool :=
  TRAILING_FIXED.any (fun p => tpFixedOk p cs) ||
    tpKeywordOk (strOf "for") cs || tpKeywordOk (strOf "like") cs

/-- Does a full match of _TRAILING_PHRASES start exactly at this position?
`prevWord` says whether the character before this position is a word
character (needed for the leading word boundary when no comma or space is
consumed). -/
def tpStartsAt (prevWord : Bool) (cs : Str) : Bool :=
  match cs with
  | ',' :: rest => tpAnyAt (rest.dropWhile isWsChar)
  | _ =>
      let sp := cs.takeWhile isWsChar
      let rest := cs.dropWhile isWsChar
      if sp.isEmpty then !prevWord && tpAnyAt cs else tpAnyAt rest

/-- name.replace(_TRAILING_PHRASES, ""): cut the input at the leftmost
position where the trailing-phrases regex matches (the match extends to the
end of the string, so everything from that position on is dropped). -/
def tpCut (prevWord : Bool) : Str → Str
  | [] => []
  | c :: rest =>
      if tpStartsAt prevWord (c :: rest) then []
      else c :: tpCut (isWordChar c) rest

-- ---------------------------------------------------------------------------
-- shopping.ts: regex stages 3 and 4 of normalizeName:
-- trim at first comma, strip trailing punctuation
-- ---------------------------------------------------------------------------

/-- Trim at the first comma when its index is positive (name.indexOf(",")
followed by slice; a comma at index 0 is kept, matching commaIdx > 0). -/
def cutAtComma (cs : Str) : Str :=
  match cs.findIdx? (fun c => c = ',') with
  | some i => if 0 < i then cs.take i else cs
  | none => cs

/-- Character class of name.replace(/[\-–—./:;]+\s*$/, ""). -/
def isTrailPunct (c : Char) : Bool :=
  c = '-' || c = '–' || c = '—' || c = '.' || c = '/' || c = ':' || c = ';'

/-- name.replace(/[\-–—./:;]+\s*$/, ""): remove a final run of
punctuation together with the whitespace after it; if the string (after its
trailing whitespace) does not end in such punctuation, keep it unchanged. -/
def stripTrailingPunct (cs : Str) : Str :=
  let r := cs.reverse
  let r1 := r.dropWhile isWsChar
  let r2 := r1.dropWhile isTrailPunct
  if r2 = r1 then cs else r2.reverse

-- ---------------------------------------------------------------------------
-- shopping.ts: regex stage 5 of normalizeName: embedded measurements
-- name.replace(/\b\d+\.?\d*\s*(ounces?|oz|...)\b\.?/g, "")
-- ---------------------------------------------------------------------------

/-- The unit alternation of the embedded-measurements regex, expanded into
the order in which a backtracking engine tries the literal alternatives
(each s? quantifier greedily tries the plural first).  This regex has no i
flag, so matching is case sensitive. -/
def MEAS_ALTS : List Str :=
  [ "ounces", "ounce", "oz", "cups", "cup", "tbsp", "tsp",
    "tablespoons", "tablespoon", "teaspoons", "teaspoon",
    "lbs", "lb", "pounds", "pound", "grams", "gram", "g", "kg", "ml",
    "liters", "liter" ].map strOf

/-- Try the measurement unit alternatives in order at the head of the input.
An alternative succeeds when it is a literal prefix and the following
character is not a word character (the \b after the group); on success the
matched literal and the remainder are returned. -/
def measUnitFrom : List Str → Str → Option (Str × Str)
  | [], _ => none
  | alt :: t, cs =>
      match stripPrefixCS alt cs with
      | some r =>
          match r with
          | [] => some (alt, [])
          | c :: _ => if isWordChar c then measUnitFrom t cs else some (alt, r)
      | none => measUnitFrom t cs



/-- Consume \d*\.?\d*\s* after the first digit of a measurement match. -/
def measAfterNum (t : Str) : Str :=
  let r1 := t.dropWhile Char.isDigit
  let r2 := match r1 with
    | c :: t2 => if c = '.' then t2.dropWhile Char.isDigit else r1
    | [] => r1
  r2.dropWhile isWsChar

/-- Try to match \d+\.?\d*\s*(unit)\b\.? where the first digit `c0` has
already been seen; `t` is the input after that digit.  On success, return
the last consumed character (for the word-boundary state of the scan that
continues after the match) and the remainder. -/
def measTryAt (c0 : Char) (t : Str) : Option (Char × Str) :=
  match measUnitFrom MEAS_ALTS (measAfterNum t) with
  | none => none
  | some (alt, r5) =>
      match r5 with
      | c :: r6 => if c = '.' then some ('.', r6) else some (alt.getLastD c0, r5)
      | [] => some (alt.getLastD c0, [])

/-- The scan for the global embedded-measurements replacement: walk the
string, and wherever a word boundary is followed by a match of the
measurements regex, drop the matched span and continue after it.  Every
step consumes at least one character, so fuel equal to the input length
makes this structural recursion extensionally equal to the source loop. -/
def measCutFuel (fuel : ℕ) (prevWord : Bool) (cs : Str) : Str :=
  match fuel with
  | 0 => cs
  | fuel + 1 =>
      match cs with
      | [] => []
      | c :: t =>
          if !prevWord && c.isDigit then
            match measTryAt c t with
            | some (lastC, r) => measCutFuel fuel (isWordChar lastC) r
            | none => c :: measCutFuel fuel true t
          else c :: measCutFuel fuel (isWordChar c) t

/-- The embedded-measurements replacement on a whole string. -/
def measCut (prevWord : Bool) (cs : Str) : Str :=
  measCutFuel cs.length prevWord cs

-- ---------------------------------------------------------------------------
-- shopping.ts: tokenization stages of normalizeName
-- ---------------------------------------------------------------------------

/-- Maximal non-whitespace runs of a string, in order. -/
def wordRuns (cs : Str) : List Str :=
  let step : Char → (Str × List Str) → (Str × List Str) := fun c acc =>
    if isWsChar c then ([], if acc.1 = [] then acc.2 else acc.1 :: acc.2)
    else (c :: acc.1, acc.2)
  let r := cs.foldr step ([], [])
  if r.1 = [] then r.2 else r.1 :: r.2

/-- String.prototype.split(/\s+/): like `wordRuns`, but JavaScript split
yields an empty first piece when the string starts with a separator, an
empty last piece when it ends with one, and [""] on the empty string. -/
def splitWs (cs : Str) : List Str :=
  match cs with
  | [] => [[]]
  | c :: _ =>
      (if isWsChar c then [([] : Str)] else []) ++ wordRuns cs ++
        (if isWsChar (cs.getLastD c) then [([] : Str)] else [])

/-- The leading-conjunction loop of normalizeName: while the first token is
one of and / or / then / plus, shift it off. -/
def dropLeadingConj : List Str → List Str
  | [] => []
  | w :: rest =>
      if w = strOf "and" || w = strOf "or" || w = strOf "then" || w = strOf "plus"
      then dropLeadingConj rest
      else w :: rest

/-- The bare-number token filter /^\d+\.?\d*$/ of normalizeName. -/
def isBareNumber (w : Str) : Bool :=
  let ds := w.takeWhile Char.isDigit
  let r := w.dropWhile Char.isDigit
  !ds.isEmpty &&
    (r.isEmpty ||
      (match r with
       | c :: r2 => c = '.' && r2.all Char.isDigit
       | [] => true))

/-- singularizeWord of shopping.ts. -/
def singularizeWord (w : Str) : Str :=
  match lookupStr IRREGULAR_PLURALS w with
  | some s => s
  | none =>
      if w.length ≤ 3 then w
      else if startsWithStr (strOf "sei") w.reverse then
        (w.take (w.length - 3)) ++ [ 'y' ]
      else if startsWithStr (strOf "seo") w.reverse then
        w.take (w.length - 2)
      else if startsWithStr (strOf "sehc") w.reverse ||
              startsWithStr (strOf "sehs") w.reverse then
        w.take (w.length - 2)
      else if startsWithStr (strOf "ses") w.reverse then
        w.take (w.length - 2)
      else if startsWithStr (strOf "s") w.reverse &&
              !startsWithStr (strOf "ss") w.reverse &&
              !startsWithStr (strOf "su") w.reverse then
        w.take (w.length - 1)
      else w

/-- List.intercalate with a single-space separator (Array.prototype.join). -/
def joinSpace (ws : List Str) : Str := List.intercalate [' '] ws

/-- normalizeName of shopping.ts: the full normalization pipeline. -/
def normalizeName (name0 : Str) : Str :=
  let n1 := removeParens name0
  let n2 := tpCut false n1
  let n3 := cutAtComma n2
  let n4 := stripTrailingPunct n3
  let n5 := measCut false n4
  let words0 := splitWs (toLowerStr n5)
  let words1 := dropLeadingConj words0
  let words2 := words1.filter (fun w => !decide (w ∈ STRIP_WORDS))
  let words3 := words2.filter (fun w => !isBareNumber w)
  let words4 := words3.map singularizeWord
  let result := trimStr (joinSpace words4)
  if result.length ≤ 1 then [] else result

/-- categorizeIngredient of shopping.ts: first category (in insertion order)
one of whose keywords is contained in the lowercased name; "other" if none. -/
def categorizeIngredient (name : Str) : Str :=
  let nameLower := toLowerStr name
  match CATEGORY_KEYWORDS.find?
      (fun p => p.2.any (fun kw => containsSub kw nameLower)) with
  | some p => p.1
  | none => strOf "other"

-- ---------------------------------------------------------------------------
-- shopping.ts: parseIngredient
-- ---------------------------------------------------------------------------

/-- The structured result of parseIngredient. -/
structure ParsedIngredient where
  name : Str
  quantity : JSNum
  unit : Str
  category : Str
deriving DecidableEq

/-- parseFloat of a nonempty digit string (a natural number). -/
def natOfDigits (ds : Str) : ℕ :=
  ds.foldl (fun acc c => acc * 10 + (c.toNat - '0'.toNat)) 0

/-- Match ^(\d+)\s+(\d+\/\d+)\s* (a mixed number).  Returns the whole part,
the numerator, the denominator and the remaining input. -/
def matchMixed (cs : Str) : Option (ℕ × ℕ × ℕ × Str) :=
  let ds := cs.takeWhile Char.isDigit
  let r1 := cs.dropWhile Char.isDigit
  if ds.isEmpty then none else
  let ws := r1.takeWhile isWsChar
  let r2 := r1.dropWhile isWsChar
  if ws.isEmpty then none else
  let ns := r2.takeWhile Char.isDigit
  let r3 := r2.dropWhile Char.isDigit
  if ns.isEmpty then none else
  match r3 with
  | c :: r4 =>
      if c = '/' then
        let ms := r4.takeWhile Char.isDigit
        let r5 := r4.dropWhile Char.isDigit
        if ms.isEmpty then none
        else some (natOfDigits ds, natOfDigits ns, natOfDigits ms,
                   r5.dropWhile isWsChar)
      else none
  | [] => none

/-- Match ^(\d+\/\d+)\s* (a plain fraction). -/
def matchFrac (cs : Str) : Option (ℕ × ℕ × Str) :=
  let ns := cs.takeWhile Char.isDigit
  let r1 := cs.dropWhile Char.isDigit
  if ns.isEmpty then none else
  match r1 with
  | c :: r2 =>
      if c = '/' then
        let ms := r2.takeWhile Char.isDigit
        let r3 := r2.dropWhile Char.isDigit
        if ms.isEmpty then none
        else some (natOfDigits ns, natOfDigits ms, r3.dropWhile isWsChar)
      else none
  | [] => none

/-- Match ^(\d+\.?\d*)\s* (a decimal or integer), as an exact rational. -/
def matchDec (cs : Str) : Option (ℚ × Str) :=
  let ds := cs.takeWhile Char.isDigit
  let r1 := cs.dropWhile Char.isDigit
  if ds.isEmpty then none else
  match r1 with
  | c :: r2 =>
      if c = '.' then
        let fs := r2.takeWhile Char.isDigit
        let r3 := r2.dropWhile Char.isDigit
        some ((natOfDigits ds : ℚ) + (natOfDigits fs : ℚ) / ((10 : ℚ) ^ fs.length),
              r3.dropWhile isWsChar)
      else some ((natOfDigits ds : ℚ), r1.dropWhile isWsChar)
  | [] => some ((natOfDigits ds : ℚ), [])

/-- The alternation of the unit regex of parseIngredient, expanded in the
order a backtracking engine tries the literals (in this regex the lone g
alternative precedes grams, unlike in the measurements regex). -/
def UNIT_ALTS : List Str :=
  [ "cups", "cup", "tbsp", "tbs", "tsp", "ts", "oz", "ounces", "ounce",
    "lbs", "lb", "pounds", "pound", "g", "grams", "gram", "kg", "ml",
    "liters", "liter", "cloves", "clove", "cans", "can", "bunches", "bunch",
    "pinch", "dash", "slices", "slice", "pieces", "piece",
    "tablespoons", "tablespoon", "teaspoons", "teaspoon",
    "stalks", "stalk", "heads", "head", "sprigs", "sprig" ].map strOf

/-- Try the unit alternatives (case insensitively) at the head of the input;
each must be followed by an optional period and then whitespace or the end
of the string, per \.?(?=\s|$).  Returns the lowercased matched unit (the
alternatives are lowercase, and the i flag makes the captured text equal to
the alternative up to case) and the input after the match. -/
def unitFromAlts : List Str → Str → Option (Str × Str)
  | [], _ => none
  | alt :: t, cs =>
      match stripPrefixCI alt cs with
      | some r =>
          match r with
          | [] => some (alt, [])
          | c :: r2 =>
              if c = '.' then
                match r2 with
                | [] => some (alt, [])
                | c2 :: _ =>
                    if isWsChar c2 then some (alt, r2) else unitFromAlts t cs
              else if isWsChar c then some (alt, r) else unitFromAlts t cs
      | none => unitFromAlts t cs

/-- The unit-token match of parseIngredient. -/
def matchUnit (cs : Str) : Option (Str × Str) := unitFromAlts UNIT_ALTS cs

/-- The quantity stage of parseIngredient: the matched quantity (0 when no
quantity was found) and the remaining input. -/
def quantityStage (text : Str) : JSNum × Str :=
  match matchMixed text with
  | some (w, n, d, rest) => (jsAdd (JSNum.fin (w : ℚ)) (jsDivNat n d), rest)
  | none =>
    match matchFrac text with
    | some (n, d, rest) => (jsDivNat n d, rest)
    | none =>
      match matchDec text with
      | some (q, rest) =>
          (match rest with
           | c :: rest2 =>
               match fracVal c with
               | some v => (JSNum.fin (q + v), rest2.dropWhile isWsChar)
               | none => (JSNum.fin q, rest)
           | [] => (JSNum.fin q, rest))
      | none =>
          match text with
          | c :: rest2 =>
              match fracVal c with
              | some v => (JSNum.fin v, rest2.dropWhile isWsChar)
              | none => (JSNum.fin 0, text)
          | [] => (JSNum.fin 0, text)

/-- The unit stage of parseIngredient: the normalized unit ("" when no unit
token matched) and the remaining input (whitespace and a leading "of "
stripped after a matched unit). -/
def unitStage (r1 : Str) : Str × Str :=
  match matchUnit r1 with
  | some (u, rest) =>
      let un := (lookupStr UNIT_NORMALIZE u).getD u
      let rest2 := rest.dropWhile isWsChar
      (un, if startsWithStr (strOf "of ") (toLowerStr rest2)
           then trimStr (rest2.drop 3) else rest2)
  | none => ([], r1)

/-- The quantity, unit and name stages of parseIngredient, after the text
preprocessing; `raw` is the trimmed raw input (the name fallback), `text`
the parenthetical-free trimmed text the matchers consume. -/
def parseIngredientCore (raw text : Str) : ParsedIngredient :=
  let step1 := quantityStage text
  let step2 := unitStage step1.2
  let name := if (trimStr step2.2).isEmpty then raw else trimStr step2.2
  let category := categorizeIngredient name
  let quantity := if step1.1 = JSNum.fin 0 then JSNum.fin 1 else step1.1
  ⟨name, quantity, step2.1, category⟩

/-- The body of parseIngredient after the initial raw = raw.trim(). -/
def parseIngredientTrimmed (raw : Str) : ParsedIngredient :=
  if raw.isEmpty then ⟨[], JSNum.fin 0, [], strOf "other"⟩
  else parseIngredientCore raw (trimStr (removeParens raw))

/-- parseIngredient of shopping.ts. -/
def parseIngredient (raw0 : Str) : ParsedIngredient :=
  parseIngredientTrimmed (trimStr raw0)

-- ---------------------------------------------------------------------------
-- shopping.ts: generateShoppingList
-- ---------------------------------------------------------------------------

/-- The fields of a Recipe used by generateShoppingList. -/
structure ShoppingRecipe where
  ingredients : List Str
  servings : ℚ
deriving DecidableEq

/-- An aggregated entry value: running quantity, adopted unit, category. -/
structure AggVal where
  quantity : JSNum
  unit : Str
  category : Str
deriving DecidableEq

/-- An element of the generated shopping list. -/
structure ShoppingItemData where
  name : Str
  quantity : JSNum
  unit : Str
  category : Str
deriving DecidableEq

/-- The planData type: day name → (slot name → recipe id or null), embedded
as nested association lists in traversal (insertion) order. -/
abbrev PlanDataS := List (Str × List (Str × Option Str))

/-- Body of the first loop of generateShoppingList for one (day, slot)
visit: the ingredient strings of the referenced recipe, each paired with
the scale factor 1 / servings (a falsy servings value is replaced by 1). -/
def visitScaled (recipes : List (Str × ShoppingRecipe))
    (slot : Str × Option Str) : List (Str × ℚ) :=
  match slot.2 with
  | none => []
  | some rid =>
      match recipes.find? (fun p => p.1 = rid) with
      | none => []
      | some pr =>
          let servings := if pr.2.servings = 0 then 1 else pr.2.servings
          pr.2.ingredients.map (fun ing => (ing, 1 / servings))

/-- First loop of generateShoppingList: every ingredient string of every
referenced recipe of every (day, slot) visit, with its scale factor. -/
def scaledIngredients (planData : PlanDataS)
    (recipes : List (Str × ShoppingRecipe)) : List (Str × ℚ) :=
  planData.flatMap (fun day => day.2.flatMap (visitScaled recipes))

/-- Merge a parsed ingredient into the entry of its key: add the scaled
quantity, adopt the first non-empty unit, upgrade an "other" category. -/
def aggMerge (v : AggVal) (parsed : ParsedIngredient) (scale : ℚ) : AggVal :=
  { quantity := jsAdd v.quantity (jsMulQ parsed.quantity scale),
    unit := if v.unit.isEmpty && !parsed.unit.isEmpty then parsed.unit else v.unit,
    category :=
      if v.category = strOf "other" && !decide (parsed.category = strOf "other")
      then parsed.category else v.category }

/-- Body of the aggregation loop of generateShoppingList for one scaled
ingredient entry, operating on the association list that embeds the
aggregated object (insertion order preserved). -/
def aggStep (acc : List (Str × AggVal)) (entry : Str × ℚ) : List (Str × AggVal) :=
  let parsed := parseIngredient entry.1
  let key := normalizeName parsed.name
  if key.isEmpty || decide (key ∈ SKIP_INGREDIENTS) then acc
  else
    let base := if (acc.find? (fun p => p.1 = key)).isSome then acc
                else acc ++ [(key, ⟨JSNum.fin 0, [], strOf "other"⟩)]
    base.map (fun p => if p.1 = key then (p.1, aggMerge p.2 parsed entry.2) else p)

/-- The aggregation loop of generateShoppingList. -/
def aggregateItems (l : List (Str × ℚ)) : List (Str × AggVal) :=
  l.foldl aggStep []

/-- generateShoppingList of shopping.ts: aggregate, sort keys, round. -/
def generateShoppingList (planData : PlanDataS)
    (recipes : List (Str × ShoppingRecipe)) : List ShoppingItemData :=
  let agg := aggregateItems (scaledIngredients planData recipes)
  let sortedKeys := List.insertionSort (· ≤ ·) (agg.map (·.1))
  sortedKeys.map (fun k =>
    let v := ((agg.find? (fun p => p.1 = k)).map (·.2)).getD ⟨JSNum.fin 0, [], strOf "other"⟩
    ⟨k, jsRound2 v.quantity, v.unit, v.category⟩)

-- ---------------------------------------------------------------------------
-- Views of one aggregation entry (read off aggStep), used to reason about
-- the order dependence of generateShoppingList
-- ---------------------------------------------------------------------------

/-- The aggregation key of one scaled ingredient entry. -/
def entryKey (entry : Str × ℚ) : Str := normalizeName (parseIngredient entry.1).name

/-- Whether aggStep merges the entry (key non-empty and not skipped). -/
def entryValid (entry : Str × ℚ) : Bool :=
  !((entryKey entry).isEmpty || decide ((entryKey entry) ∈ SKIP_INGREDIENTS))

/-- The scaled quantity the entry contributes to its key. -/
def entryQty (entry : Str × ℚ) : JSNum :=
  jsMulQ (parseIngredient entry.1).quantity entry.2

/-- The keys of the valid entries, in entry order. -/
def validKeys (l : List (Str × ℚ)) : List Str := (l.filter entryValid).map entryKey

/-- The total quantity the entries of a list contribute to a key. -/
def keyQty (k : Str) (l : List (Str × ℚ)) : JSNum :=
  ((l.filter (fun e => entryValid e && decide (entryKey e = k))).map entryQty).sum

/-- The running quantity stored under a key of the aggregation object. -/
def qtyOf (k : Str) (acc : List (Str × AggVal)) : JSNum :=
  ((acc.find? (fun p => p.1 = k)).map (·.2.quantity)).getD (JSNum.fin 0)

-- ---------------------------------------------------------------------------
-- sync.ts and schema.ts: the sync reconciler
--
-- Timestamps are naturals (ISO strings under the JS string comparison are
-- ordered chronologically; the epoch fallback string is 0).  The recipe
-- content columns other than name all behave exactly like name (copied
-- wholesale by normalizeServerRecipe / updateRecipe), so name stands in for
-- the full content payload.
-- ---------------------------------------------------------------------------

/-- A local recipe row (the columns relevant to sync). -/
structure LocalRecipe where
  id : String
  name : String
  updatedAt : ℕ
  syncedAt : Option ℕ
deriving DecidableEq

/-- A recipe as returned by the server. -/
structure ServerRecipe where
  id : String
  name : String
  updatedAt : ℕ
deriving DecidableEq

/-- A partial update for updateRecipe: absent fields are left unchanged. -/
structure RecipeUpdate where
  name : Option String
  syncedAt : Option (Option ℕ)
deriving DecidableEq

/-- The result of normalizeServerRecipe: the server fields mapped onto the
local shape, with syncedAt stamped to the present sync time. -/
structure NormalizedRecipe where
  id : String
  name : String
  updatedAt : ℕ
  syncedAt : Option ℕ
deriving DecidableEq

/-- normalizeServerRecipe of sync.ts. -/
def normalizeServerRecipe (server : ServerRecipe) (now : ℕ) : NormalizedRecipe :=
  { id := server.id, name := server.name, updatedAt := server.updatedAt,
    syncedAt := some now }

/-- The local database: recipe rows. -/
abbrev RecipeDB := List LocalRecipe

/-- getRecipeById of schema.ts. -/
def getRecipeById (db : RecipeDB) (id : String) : Option LocalRecipe :=
  db.find? (fun r => r.id = id)

/-- insertRecipe of schema.ts: a new row with created_at and updated_at
stamped to now and synced_at taken from the given record. -/
def insertRecipeS (db : RecipeDB) (n : NormalizedRecipe) (now : ℕ) : RecipeDB :=
  db ++ [{ id := n.id, name := n.name, updatedAt := now, syncedAt := n.syncedAt }]

/-- updateRecipe of schema.ts: apply the provided fields to the row with the
given id and always stamp updated_at to now. -/
def updateRecipeS (db : RecipeDB) (id : String) (u : RecipeUpdate) (now : ℕ) :
    RecipeDB :=
  db.map (fun r =>
    if r.id = id then
      { id := r.id, name := u.name.getD r.name, updatedAt := now,
        syncedAt := u.syncedAt.getD r.syncedAt }
    else r)

/-- The update payload produced from a normalized server recipe (all content
fields plus syncedAt). -/
def updateOfNormalized (n : NormalizedRecipe) : RecipeUpdate :=
  { name := some n.name, syncedAt := some n.syncedAt }

/-- getRecipesUpdatedSince of schema.ts:
rows with updated_at > since and (synced_at is null or
updated_at > synced_at), ordered by updated_at ascending. -/
def getRecipesUpdatedSince (db : RecipeDB) (since : ℕ) : List LocalRecipe :=
  List.insertionSort (fun a b => a.updatedAt ≤ b.updatedAt)
    (db.filter (fun r =>
      decide (since < r.updatedAt) &&
        (match r.syncedAt with
         | none => true
         | some s => decide (s < r.updatedAt))))

/-- A conflict surfaced by the pull phase. -/
structure SyncConflictS where
  localVersion : LocalRecipe
  serverVersion : NormalizedRecipe
deriving DecidableEq

/-- Pull-phase state: database, conflicts so far, pulled counter. -/
structure PullState where
  db : RecipeDB
  conflicts : List SyncConflictS
  pulled : ℕ
deriving DecidableEq

/-- One iteration of the pull loop of performSync (sync.ts): insert new
rows, surface a conflict when the local row was edited after its last sync,
otherwise overwrite the local row with the server version. -/
def pullStep (st : PullState) (server : ServerRecipe) (now : ℕ) : PullState :=
  let normalized := normalizeServerRecipe server now
  match getRecipeById st.db normalized.id with
  | none =>
      { st with db := insertRecipeS st.db normalized now, pulled := st.pulled + 1 }
  | some localMatch =>
      if (match localMatch.syncedAt with
          | some s => decide (s < localMatch.updatedAt)
          | none => false) then
        { st with conflicts :=
            st.conflicts ++ [⟨localMatch, normalized⟩] }
      else
        { st with
            db := updateRecipeS st.db localMatch.id (updateOfNormalized normalized) now,
            pulled := st.pulled + 1 }

/-- The pull phase of performSync: fold pullStep over the server recipes. -/
def pullPhase (db : RecipeDB) (serverRecipes : List ServerRecipe) (now : ℕ) :
    PullState :=
  serverRecipes.foldl (fun st s => pullStep st s now) ⟨db, [], 0⟩

/-- Mark every pushed recipe as synced (the loop body of the push phase:
each push succeeds and is followed by updateRecipe with syncedAt = now). -/
def markPushed (db : RecipeDB) (pushed : List LocalRecipe) (now : ℕ) : RecipeDB :=
  pushed.foldl (fun d r =>
    updateRecipeS d r.id { name := none, syncedAt := some (some now) } now) db

/-- The result of performSync. -/
structure SyncResultS where
  pulled : ℕ
  pushedIds : List String
  conflicts : List SyncConflictS
  db : RecipeDB
  lastSyncAt : Option ℕ
  errorFlag : Bool
deriving DecidableEq

/-- performSync of sync.ts, over a server abstraction where every push
succeeds (an individual push failure only skips that recipe's syncedAt
stamp; preferences sync does not touch recipes and is omitted):
1. pull; 2. select local changes since lastSync (epoch when null) and push
them; 3. stamp lastSyncAt. -/
def performSync (token : Option String) (db : RecipeDB) (lastSync : Option ℕ)
    (serverRecipes : List ServerRecipe) (now : ℕ) : SyncResultS :=
  match token with
  | none => ⟨0, [], [], db, lastSync, true⟩
  | some _ =>
      let pull := pullPhase db serverRecipes now
      let localChanges := getRecipesUpdatedSince pull.db (lastSync.getD 0)
      let db2 := markPushed pull.db localChanges now
      ⟨pull.pulled, localChanges.map (·.id), pull.conflicts, db2, some now, false⟩

-- ---------------------------------------------------------------------------
-- MealPlanSolver (the solver driver and the block-grouping constraints)
-- ---------------------------------------------------------------------------

/-- The recipe fields used by the block-grouping section of _solveSingle. -/
structure RecipeInput where
  id : String
  frequencyLimit : ℕ
deriving DecidableEq

/-- The byCategory grouping: active slot name → recipes eligible for it. -/
abbrev ByCategory := List (String × List RecipeInput)

/-- The eligible recipes of a slot (byCategory[slot]). -/
def recipesFor (byCategory : ByCategory) (slot : String) : List RecipeInput :=
  ((byCategory.find? (fun p => p.1 = slot)).map (·.2)).getD []

/-- The recipeLookup object of _solveSingle: recipes of all categories,
keyed by id, first insertion position kept.  (With combineLunchDinner the
same recipe object occurs in two category lists; the later JS assignment
overwrites the value with the identical object, so keeping the first
occurrence is the same map.) -/
def recipeLookupList (byCategory : ByCategory) : List RecipeInput :=
  (byCategory.flatMap (·.2)).foldl
    (fun acc r => if acc.any (fun a => a.id = r.id) then acc else acc ++ [r]) []

/-- Object.values(recipeLookup)[0]?.frequencyLimit ?? 1. -/
def sampleFreqOf (byCategory : ByCategory) : ℕ :=
  match recipeLookupList byCategory with
  | [] => 1
  | r :: _ => r.frequencyLimit

/-- The while loop that partitions day indices [start, numDays) into
contiguous blocks of blockSize days (the last block may be shorter).  The
source loop does not terminate when blockSize = 0 (a recipe with frequency
limit 0, which the data model excludes); the embedding stops there.  With a
positive blockSize every step advances start, so fuel numDays makes this
structural recursion extensionally equal to the source loop. -/
def mkBlocksFrom (fuel blockSize numDays start : ℕ) : List (List ℕ) :=
  match fuel with
  | 0 => []
  | fuel + 1 =>
      if start < numDays ∧ 0 < blockSize then
        let e := min (start + blockSize) numDays
        List.range' start (e - start) :: mkBlocksFrom fuel blockSize numDays e
      else []

/-- The block partition of the days of a single solve. -/
def mkBlocks (blockSize numDays : ℕ) : List (List ℕ) :=
  mkBlocksFrom numDays blockSize numDays 0

/-- The kinds of GLPK constraint bounds used by the model builder. -/
inductive BndType where
  | fx : BndType
  | up : BndType
  | lo : BndType
deriving DecidableEq

/-- A linear constraint handed to glpk.solve. -/
structure ConstraintS where
  name : String
  vars : List (String × ℚ)
  type : BndType
  lb : ℚ
  ub : ℚ
deriving DecidableEq

/-- The decision-variable name x_${r.id}_${d}_${cat}. -/
def xVar (r : RecipeInput) (d : ℕ) (slot : String) : String :=
  "x_" ++ r.id ++ "_" ++ Nat.repr d ++ "_" ++ slot

/-- The equality constraint x[r,d,slot] = x[r,firstDay,slot] emitted by the
block-grouping section. -/
def blockCon (r : RecipeInput) (d firstDay : ℕ) (slot : String) : ConstraintS :=
  { name := "block_same_" ++ r.id ++ "_d" ++ Nat.repr d ++ "_to_d" ++
      Nat.repr firstDay ++ "_" ++ slot,
    vars := [(xVar r d slot, 1), (xVar r firstDay slot, -1)],
    type := BndType.fx, lb := 0, ub := 0 }

/-- The constraint-3 section of _solveSingle: for every block of more than
one day, every non-first day of the block, every active slot and every
recipe eligible for the slot, force equality with the first day. -/
def blockConstraints (byCategory : ByCategory) (activeSlots : List String)
    (numDays : ℕ) : List ConstraintS :=
  let blockSize := min (sampleFreqOf byCategory) numDays
  (mkBlocks blockSize numDays).flatMap (fun block =>
    match block with
    | [] => []
    | firstDay :: rest =>
        rest.flatMap (fun d =>
          activeSlots.flatMap (fun slot =>
            (recipesFor byCategory slot).map (fun r => blockCon r d firstDay slot))))

/-- A solved plan as extracted from the backend: a name (set by the driver)
and the day → slot → recipe id map. -/
structure SolvedPlanS where
  name : String
  planData : List (String × List (String × Option String))
deriving DecidableEq

/-- The recipe ids chosen by a plan (the non-null planData values). -/
def planRecipeIds (pd : List (String × List (String × Option String))) :
    List String :=
  pd.flatMap (fun d => d.2.filterMap (·.2))

/-- The label given to the plan of index i. -/
def planLabel (i : ℕ) : String := "Plan " ++ Nat.repr (i + 1)

/-- The loop of MealPlanSolver.solve over plan indices.  The three-tier
_solveSingle call is abstracted as the oracle `attempt`, a function of the
plan index and the reuse-penalty set (the per-call GLPK time limit and the
error catch make a failure possible at any index).  Each step records the
penalize set that was passed and the labeled plan (none when all tiers
failed); on success the chosen recipe ids are folded into the used set. -/
def solveSteps (attempt : ℕ → Finset String → Option SolvedPlanS) :
    Finset String → List ℕ → List (Finset String × Option SolvedPlanS)
  | _, [] => []
  | used, i :: rest =>
      let penalize := if 0 < i then used else ∅
      match attempt i penalize with
      | some p =>
          (penalize, some { p with name := planLabel i }) ::
            solveSteps attempt (used ∪ (planRecipeIds p.planData).toFinset) rest
      | none => (penalize, none) :: solveSteps attempt used rest

/-- The per-index trace of a MealPlanSolver.solve call. -/
def solveTrace (attempt : ℕ → Finset String → Option SolvedPlanS)
    (numPlans : ℕ) : List (Finset String × Option SolvedPlanS) :=
  solveSteps attempt ∅ (List.range numPlans)

/-- MealPlanSolver.solve: the plans produced, in production order. -/
def MealPlanSolver.solve (attempt : ℕ → Finset String → Option SolvedPlanS)
    (numPlans : ℕ) : List SolvedPlanS :=
  (solveTrace attempt numPlans).filterMap (·.2)

-- ---------------------------------------------------------------------------
-- reroll.ts: the reroll engine
-- ---------------------------------------------------------------------------

/-- The recipe fields used by reroll.ts (the || 0 guards of the source are
identities here because the macro fields are total). -/
structure RecipeR where
  id : String
  category : String
  calories : ℚ
  protein : ℚ
  fat : ℚ
  carbs : ℚ
  fiber : ℚ
deriving DecidableEq

/-- A meal assignment: slot plus recipe. -/
structure MealAssignmentR where
  slot : String
  recipe : RecipeR
deriving DecidableEq

/-- A day of a plan with its cached totals. -/
structure DayPlanR where
  day : String
  meals : List MealAssignmentR
  totalCalories : ℚ
  totalProtein : ℚ
  totalFat : ℚ
  totalCarbs : ℚ
deriving DecidableEq

/-- The plan-level macro summary (daily averages). -/
structure MacroSummaryR where
  avgCalories : ℚ
  avgProtein : ℚ
  avgFat : ℚ
  avgCarbs : ℚ
  avgFiber : ℚ
deriving DecidableEq

/-- A meal plan. -/
structure MealPlanR where
  id : String
  label : String
  days : List DayPlanR
  macroSummary : MacroSummaryR
  selected : Bool
  updatedAt : ℕ
deriving DecidableEq

/-- Math.round(x * 10) / 10 (one decimal, half toward positive infinity). -/
def qRound1 (q : ℚ) : ℚ := ((⌊q * 10 + 1/2⌋ : ℤ) : ℚ) / 10

/-- Math.abs on the rational embedding of JS numbers. -/
def jsAbs (q : ℚ) : ℚ := bif decide (q < 0) then -q else q

/-- withinTolerance of reroll.ts (TOLERANCES: 100 / 10 / 10 / 10). -/
def withinTolerance (candidate current : RecipeR) : Bool :=
  decide (jsAbs (candidate.calories - current.calories) ≤ 100) &&
  decide (jsAbs (candidate.protein - current.protein) ≤ 10) &&
  decide (jsAbs (candidate.fat - current.fat) ≤ 10) &&
  decide (jsAbs (candidate.carbs - current.carbs) ≤ 10)

/-- macroDistance of reroll.ts. -/
def macroDistance (candidate current : RecipeR) : ℚ :=
  ((candidate.calories - current.calories) / max current.calories 1) ^ 2 +
  ((candidate.protein - current.protein) / max current.protein 1) ^ 2 +
  ((candidate.fat - current.fat) / max current.fat 1) ^ 2 +
  ((candidate.carbs - current.carbs) / max current.carbs 1) ^ 2

/-- computeMacroSummary of reroll.ts: daily averages over all meals. -/
def computeMacroSummary (days : List DayPlanR) : MacroSummaryR :=
  let numDays : ℚ := max (days.length : ℚ) 1
  let meals := days.flatMap (·.meals)
  { avgCalories := qRound1 ((meals.map (·.recipe.calories)).sum / numDays),
    avgProtein := qRound1 ((meals.map (·.recipe.protein)).sum / numDays),
    avgFat := qRound1 ((meals.map (·.recipe.fat)).sum / numDays),
    avgCarbs := qRound1 ((meals.map (·.recipe.carbs)).sum / numDays),
    avgFiber := qRound1 ((meals.map (·.recipe.fiber)).sum / numDays) }

/-- recomputeDayTotals of reroll.ts. -/
def recomputeDayTotals (day : DayPlanR) : DayPlanR :=
  { day with
    totalCalories := (day.meals.map (·.recipe.calories)).sum,
    totalProtein := (day.meals.map (·.recipe.protein)).sum,
    totalFat := (day.meals.map (·.recipe.fat)).sum,
    totalCarbs := (day.meals.map (·.recipe.carbs)).sum }

/-- The sort-then-take-first of step 5 of rerollMeal: the JS sort is stable,
so candidates.sort(by distance)[0] is the leftmost candidate of minimal
macro distance, which this left fold computes. -/
def closestCandidate (c0 : RecipeR) (candidates : List RecipeR)
    (current : RecipeR) : RecipeR :=
  candidates.foldl
    (fun acc c =>
      if macroDistance c current < macroDistance acc current then c else acc) c0

/-- Steps 4 and 5 of rerollMeal: filter the candidates to the tolerance
window and pick, randomly from the eligible pool, or else the closest macro
match; `c0` is the head of the (non-empty) candidate list. -/
def rerollPick (candidates : List RecipeR) (c0 current : RecipeR) (rand : ℕ) :
    RecipeR :=
  let eligible := candidates.filter (fun c => withinTolerance c current)
  match eligible with
  | [] => closestCandidate c0 candidates current
  | e0 :: _ => eligible.getD (rand % eligible.length) e0

/-- Steps 6 to 8 of rerollMeal: replace every meal at the given slot whose
recipe has the replaced id, recompute day totals for every day, and
recompute the plan macro summary. -/
def rerollApply (plan : MealPlanR) (slot oldId : String) (best : RecipeR)
    (now : ℕ) : MealPlanR :=
  let updatedDays := plan.days.map (fun dp =>
    recomputeDayTotals
      { dp with meals := dp.meals.map (fun m =>
          if m.slot = slot && m.recipe.id = oldId
          then { m with recipe := best } else m) })
  { plan with
      days := updatedDays,
      macroSummary := computeMacroSummary updatedDays,
      updatedAt := now }

/-- rerollMeal of reroll.ts.  Math.floor(Math.random() * eligible.length) is
abstracted as rand % eligible.length for an arbitrary natural rand; `now`
stands for new Date().toISOString(). -/
def rerollMeal (plan : MealPlanR) (day slot : String)
    (allRecipes : List RecipeR) (rand now : ℕ) :
    Option (MealPlanR × RecipeR) :=
  match plan.days.find? (fun d => d.day = day) with
  | none => none
  | some targetDay =>
      match targetDay.meals.find? (fun m => m.slot = slot) with
      | none => none
      | some targetMeal =>
          let currentRecipe := targetMeal.recipe
          let usedIds :=
            (plan.days.flatMap (fun dp => dp.meals.filterMap (fun m =>
              if m.recipe.id ≠ currentRecipe.id then some m.recipe.id else none)))
              ++ [currentRecipe.id]
          let candidates := allRecipes.filter (fun r =>
            decide (r.category = slot) && !decide (r.id ∈ usedIds))
          match candidates with
          | [] => none
          | c0 :: _ =>
              let best := rerollPick candidates c0 currentRecipe rand
              some (rerollApply plan slot currentRecipe.id best now, best)

/-- The recipe currently assigned at (day, slot), as located by steps 1 of
rerollMeal (used to state the frame theorem). -/
def currentRecipeAt (plan : MealPlanR) (day slot : String) : Option RecipeR :=
  match plan.days.find? (fun d => d.day = day) with
  | none => none
  | some targetDay =>
      (targetDay.meals.find? (fun m => m.slot = slot)).map (·.recipe)

-- ---------------------------------------------------------------------------
-- Concrete inputs used by witnesses and counterexamples
-- ---------------------------------------------------------------------------

/-- Two recipes whose shared ingredient "milk" carries different units. -/
def milkRecipes : List (Str × ShoppingRecipe) :=
  [ (strOf "r1", ⟨[strOf "1 cup milk"], 1⟩),
    (strOf "r2", ⟨[strOf "1 oz milk"], 1⟩) ]

/-- A one-day plan visiting (Day 1, breakfast) then (Day 1, lunch). -/
def milkPlanA : PlanDataS :=
  [ (strOf "Day 1",
      [ (strOf "breakfast", some (strOf "r1")),
        (strOf "lunch", some (strOf "r2")) ]) ]

/-- The same plan with the two (day, slot) visits transposed. -/
def milkPlanB : PlanDataS :=
  [ (strOf "Day 1",
      [ (strOf "lunch", some (strOf "r2")),
        (strOf "breakfast", some (strOf "r1")) ]) ]

/-- The (day, slot) visits of a planData value, in traversal order. -/
def planVisits (p : PlanDataS) : List (Str × Option Str) :=
  p.flatMap (·.2)

/-- A breakfast recipe for the reroll witnesses. -/
def recA : RecipeR := ⟨"A", "breakfast", 300, 20, 10, 30, 0⟩

/-- A close-by breakfast alternative for the reroll witnesses. -/
def recB : RecipeR := ⟨"B", "breakfast", 320, 22, 11, 32, 1⟩

/-- A day whose single meal is recA at breakfast, with stale cached totals
(totalCalories 999 instead of 300), to exhibit that reroll repairs them. -/
def staleDay : DayPlanR := ⟨"Day 1", [⟨"breakfast", recA⟩], 999, 0, 0, 0⟩

/-- A one-day plan built on the stale day. -/
def samplePlanR : MealPlanR :=
  ⟨"p1", "Plan 1", [staleDay], ⟨300, 20, 10, 30, 0⟩, false, 0⟩

/-- The day produced by rerolling the breakfast of the sample plan to recB. -/
def rerolledDay : DayPlanR := ⟨"Day 1", [⟨"breakfast", recB⟩], 320, 22, 11, 32⟩

/-- The full result of that reroll. -/
def rerolledResult : MealPlanR × RecipeR :=
  (⟨"p1", "Plan 1", [rerolledDay], ⟨320, 22, 11, 32, 1⟩, false, 5⟩, recB)

/-- A byCategory grouping with one breakfast recipe of frequency limit 2. -/
def blockByCategory : ByCategory := [("breakfast", [⟨"A", 2⟩])]

/-- An oracle that fails at plan index 0 and succeeds at index 1. -/
def skipAttempt : ℕ → Finset String → Option SolvedPlanS := fun i _ =>
  if i = 0 then none
  else some ⟨"", [("Day 1", [("breakfast", some "A")])]⟩

/-- An oracle that always succeeds with a fixed one-assignment plan. -/
def okAttempt : ℕ → Finset String → Option SolvedPlanS := fun _ _ =>
  some ⟨"", [("Day 1", [("breakfast", some "A")])]⟩

-- ---------------------------------------------------------------------------
-- C2: idempotence of normalizeName
-- ---------------------------------------------------------------------------

/-- Claim C2 (P8) says normalizeName is idempotent.  It is not: the ses → s
singularization of "cheeses" yields "chees", which still ends in a single s
and is singularized again to "chee" on a second pass, so
normalizeName (normalizeName "cheeses") differs from normalizeName
"cheeses".  This refutes the claimed idempotence on the code as written. -/
theorem normalizeName_not_idempotent_cheeses :
    normalizeName (normalizeName (strOf "cheeses")) ≠
      normalizeName (strOf "cheeses") := by decide

-- ---------------------------------------------------------------------------
-- C7: unit normalization and pound spellings
-- ---------------------------------------------------------------------------

theorem dropTrailingWs_append (a b : Str) :
    dropTrailingWs (a ++ b) =
      if dropTrailingWs b = [] then dropTrailingWs a else a ++ dropTrailingWs b := by
  unfold dropTrailingWs
  rw [List.reverse_append, List.dropWhile_append]
  by_cases h : (List.dropWhile isWsChar b.reverse).isEmpty = true
  · rw [if_pos h]
    have h2 : (List.dropWhile isWsChar b.reverse).reverse = [] := by
      rw [List.isEmpty_iff] at h; simp [h]
    rw [if_pos h2]
  · rw [if_neg h]
    have h2 : ¬ (List.dropWhile isWsChar b.reverse).reverse = [] := by
      rw [List.isEmpty_iff] at h; simp [h]
    rw [if_neg h2, List.reverse_append, List.reverse_reverse]

theorem trimStr_append_keep (pre x : Str) (h1 : pre.dropWhile isWsChar = pre)
    (h2 : ¬ pre.isEmpty = true) :
    trimStr (pre ++ x) =
      if dropTrailingWs x = [] then trimStr pre else pre ++ dropTrailingWs x := by
  unfold trimStr
  rw [List.dropWhile_append, h1, if_neg (by simpa using h2),
    dropTrailingWs_append]

theorem parseIngredient_lb_unit (name : Str) :
    (parseIngredient (strOf "1 lb " ++ name)).unit = strOf "lb" := by
  unfold parseIngredient
  rw [trimStr_append_keep (strOf "1 lb ") name rfl (by decide)]
  by_cases h : dropTrailingWs name = []
  · rw [if_pos h]; rfl
  · rw [if_neg h]
    generalize dropTrailingWs name = w at h
    rw [show parseIngredientTrimmed (strOf "1 lb " ++ w) =
        parseIngredientCore (strOf "1 lb " ++ w)
          (trimStr (removeParens (strOf "1 lb " ++ w))) from rfl]
    rw [show removeParens (strOf "1 lb " ++ w) = strOf "1 lb " ++ removeParens w
        from rfl]
    rw [trimStr_append_keep (strOf "1 lb ") (removeParens w) rfl (by decide)]
    by_cases h2 : dropTrailingWs (removeParens w) = []
    · rw [if_pos h2]; rfl
    · rw [if_neg h2]; rfl

theorem parseIngredient_lbs_unit (name : Str) :
    (parseIngredient (strOf "1 lbs " ++ name)).unit = strOf "lb" := by
  unfold parseIngredient
  rw [trimStr_append_keep (strOf "1 lbs ") name rfl (by decide)]
  by_cases h : dropTrailingWs name = []
  · rw [if_pos h]; rfl
  · rw [if_neg h]
    generalize dropTrailingWs name = w at h
    rw [show parseIngredientTrimmed (strOf "1 lbs " ++ w) =
        parseIngredientCore (strOf "1 lbs " ++ w)
          (trimStr (removeParens (strOf "1 lbs " ++ w))) from rfl]
    rw [show removeParens (strOf "1 lbs " ++ w) = strOf "1 lbs " ++ removeParens w
        from rfl]
    rw [trimStr_append_keep (strOf "1 lbs ") (removeParens w) rfl (by decide)]
    by_cases h2 : dropTrailingWs (removeParens w) = []
    · rw [if_pos h2]; rfl
    · rw [if_neg h2]; rfl

theorem parseIngredient_pound_unit (name : Str) :
    (parseIngredient (strOf "1 pound " ++ name)).unit = strOf "pound" := by
  unfold parseIngredient
  rw [trimStr_append_keep (strOf "1 pound ") name rfl (by decide)]
  by_cases h : dropTrailingWs name = []
  · rw [if_pos h]; rfl
  · rw [if_neg h]
    generalize dropTrailingWs name = w at h
    rw [show parseIngredientTrimmed (strOf "1 pound " ++ w) =
        parseIngredientCore (strOf "1 pound " ++ w)
          (trimStr (removeParens (strOf "1 pound " ++ w))) from rfl]
    rw [show removeParens (strOf "1 pound " ++ w) =
        strOf "1 pound " ++ removeParens w from rfl]
    rw [trimStr_append_keep (strOf "1 pound ") (removeParens w) rfl (by decide)]
    by_cases h2 : dropTrailingWs (removeParens w) = []
    · rw [if_pos h2]; rfl
    · rw [if_neg h2]; rfl

theorem parseIngredient_pounds_unit (name : Str) :
    (parseIngredient (strOf "1 pounds " ++ name)).unit = strOf "pound" := by
  unfold parseIngredient
  rw [trimStr_append_keep (strOf "1 pounds ") name rfl (by decide)]
  by_cases h : dropTrailingWs name = []
  · rw [if_pos h]; rfl
  · rw [if_neg h]
    generalize dropTrailingWs name = w at h
    rw [show parseIngredientTrimmed (strOf "1 pounds " ++ w) =
        parseIngredientCore (strOf "1 pounds " ++ w)
          (trimStr (removeParens (strOf "1 pounds " ++ w))) from rfl]
    rw [show removeParens (strOf "1 pounds " ++ w) =
        strOf "1 pounds " ++ removeParens w from rfl]
    rw [trimStr_append_keep (strOf "1 pounds ") (removeParens w) rfl (by decide)]
    by_cases h2 : dropTrailingWs (removeParens w) = []
    · rw [if_pos h2]; rfl
    · rw [if_neg h2]; rfl

/-- Claim C7 as stated is false on the code: the normalization table maps
the plural "pounds" to the singular "pound", not to "lb", so an ingredient
whose unit token is the pound spelling "pounds" parses to unit "pound". -/
theorem parseIngredient_pounds_not_lb :
    (parseIngredient (strOf "2 pounds beef")).unit = strOf "pound" ∧
      strOf "pound" ≠ strOf "lb" := by decide

/-- Claim C7, amended: the unit-normalization table folds plural unit forms
to their canonical singular ("lbs" to "lb", "tablespoons" to "tablespoon",
"pounds" to "pound"), and for every ingredient name, the pound spellings
"lb" and "lbs" parse to unit "lb" while "pound" and "pounds" parse to unit
"pound" (no folding of "pound" onto "lb" takes place). -/
theorem parseIngredient_pound_spellings (name : Str) :
    (parseIngredient (strOf "1 lb " ++ name)).unit = strOf "lb" ∧
    (parseIngredient (strOf "1 lbs " ++ name)).unit = strOf "lb" ∧
    (parseIngredient (strOf "1 pound " ++ name)).unit = strOf "pound" ∧
    (parseIngredient (strOf "1 pounds " ++ name)).unit = strOf "pound" ∧
    lookupStr UNIT_NORMALIZE (strOf "lbs") = some (strOf "lb") ∧
    lookupStr UNIT_NORMALIZE (strOf "tablespoons") = some (strOf "tablespoon") ∧
    lookupStr UNIT_NORMALIZE (strOf "pounds") = some (strOf "pound") ∧
    lookupStr UNIT_NORMALIZE (strOf "pound") = none ∧
    lookupStr UNIT_NORMALIZE (strOf "lb") = none :=
  ⟨parseIngredient_lb_unit name, parseIngredient_lbs_unit name,
    parseIngredient_pound_unit name, parseIngredient_pounds_unit name,
    by decide, by decide, by decide, by decide, by decide⟩

-- ---------------------------------------------------------------------------
-- C9: positivity of parsed quantities and the name fallback
-- ---------------------------------------------------------------------------

theorem matchDec_nonneg {cs : Str} {q : ℚ} {rest : Str}
    (h : matchDec cs = some (q, rest)) : 0 ≤ q := by
  simp only [matchDec] at h
  split at h
  · simp at h
  · split at h
    · split at h
      · injection h with h1; injection h1 with h2 _; subst h2; positivity
      · injection h with h1; injection h1 with h2 _; subst h2; positivity
    · injection h with h1; injection h1 with h2 _; subst h2; positivity

theorem fracVal_pos {c : Char} {v : ℚ} (h : fracVal c = some v) : 0 < v := by
  unfold fracVal at h
  cases hf : UNICODE_FRACTIONS.find? (fun p => p.1 = c) with
  | none => rw [hf] at h; simp at h
  | some p =>
      rw [hf] at h
      simp at h
      have hm := List.mem_of_find?_eq_some hf
      have hall : ∀ q ∈ UNICODE_FRACTIONS, 0 < q.2 := by
        intro q hq
        simp only [UNICODE_FRACTIONS, List.mem_cons, List.not_mem_nil, or_false] at hq
        rcases hq with rfl | rfl | rfl | rfl | rfl | rfl | rfl | rfl | rfl | rfl |
          rfl | rfl | rfl | rfl | rfl
        all_goals norm_num
      rw [← h]
      exact hall p hm

theorem jsDivNat_cases (n d : ℕ) :
    jsDivNat n d = JSNum.nan ∨ jsDivNat n d = JSNum.posInf ∨
      ∃ q : ℚ, jsDivNat n d = JSNum.fin q ∧ 0 ≤ q := by
  unfold jsDivNat
  by_cases hd : d = 0
  · by_cases hn : n = 0
    · left; simp [hd, hn]
    · right; left; simp [hd, hn]
  · right; right
    exact ⟨(n : ℚ) / d, by simp [hd], by positivity⟩

theorem quantityStage_tri (text : Str) :
    (quantityStage text).1 = JSNum.nan ∨ (quantityStage text).1 = JSNum.posInf ∨
      ∃ r : ℚ, (quantityStage text).1 = JSNum.fin r ∧ 0 ≤ r := by
  unfold quantityStage
  cases hm : matchMixed text with
  | some val =>
      obtain ⟨w, n, d, rest⟩ := val
      simp only []
      rcases jsDivNat_cases n d with h | h | ⟨q, h, hq⟩ <;> rw [h]
      · left; rfl
      · right; left; rfl
      · right; right
        exact ⟨(w : ℚ) + q, rfl, by positivity⟩
  | none =>
      simp only []
      cases hf : matchFrac text with
      | some val =>
          obtain ⟨n, d, rest⟩ := val
          simp only []
          rcases jsDivNat_cases n d with h | h | ⟨q, h, hq⟩ <;> rw [h]
          · left; rfl
          · right; left; rfl
          · right; right; exact ⟨q, rfl, hq⟩
      | none =>
          simp only []
          cases hd : matchDec text with
          | some val =>
              obtain ⟨q, rest⟩ := val
              have hq : 0 ≤ q := matchDec_nonneg hd
              simp only []
              cases rest with
              | nil => right; right; exact ⟨q, rfl, hq⟩
              | cons c rest2 =>
                  simp only []
                  cases hv : fracVal c with
                  | some v =>
                      right; right
                      exact ⟨q + v, rfl, by have := fracVal_pos hv; linarith⟩
                  | none => right; right; exact ⟨q, rfl, hq⟩
          | none =>
              simp only []
              cases text with
              | nil => right; right; exact ⟨0, rfl, le_refl 0⟩
              | cons c rest2 =>
                  simp only []
                  cases hv : fracVal c with
                  | some v =>
                      right; right
                      exact ⟨v, rfl, le_of_lt (fracVal_pos hv)⟩
                  | none => right; right; exact ⟨0, rfl, le_refl 0⟩

theorem parseIngredientCore_quantity (raw text : Str) :
    jsPos (parseIngredientCore raw text).quantity = true ∨
      (parseIngredientCore raw text).quantity = JSNum.nan := by
  have htri := quantityStage_tri text
  have hq : (parseIngredientCore raw text).quantity =
      (if (quantityStage text).1 = JSNum.fin 0 then JSNum.fin 1
       else (quantityStage text).1) := rfl
  rw [hq]
  rcases htri with h | h | ⟨r, h, hr⟩ <;> rw [h]
  · right; rfl
  · left; rfl
  · by_cases h0 : r = 0
    · subst h0; left; rfl
    · have hne : ¬ (JSNum.fin r = JSNum.fin 0) := by
        intro hc; injection hc with hc2; exact h0 hc2
      rw [if_neg hne]
      left
      simp [jsPos]
      exact lt_of_le_of_ne hr (Ne.symm h0)

theorem parseIngredientCore_name_ne (raw text : Str) (h : raw ≠ []) :
    (parseIngredientCore raw text).name ≠ [] := by
  have hn : (parseIngredientCore raw text).name =
      (if (trimStr (unitStage (quantityStage text).2).2).isEmpty then raw
       else trimStr (unitStage (quantityStage text).2).2) := rfl
  rw [hn]
  by_cases he : (trimStr (unitStage (quantityStage text).2).2).isEmpty = true
  · rw [if_pos he]; exact h
  · rw [if_neg he]
    intro hc
    rw [hc] at he
    exact he rfl

/-- Claim C9 as stated is false on the code in one corner: a leading
fraction whose numerator and denominator are both zero parses to NaN
(0/0 in JavaScript), which is not greater than zero, even though the
trimmed input is non-empty. -/
theorem parseIngredient_zero_over_zero_nan :
    trimStr (strOf "0/0 tsp vanilla") ≠ [] ∧
    (parseIngredient (strOf "0/0 tsp vanilla")).quantity = JSNum.nan ∧
    jsPos (parseIngredient (strOf "0/0 tsp vanilla")).quantity = false := by
  decide

/-- Claim C9, amended: for every input whose trimmed form is non-empty the
returned quantity is positive or NaN (NaN only from a zero-over-zero
fraction), and the returned name is non-empty; an explicit leading zero
quantity is returned as 1.0, indistinguishable from a missing quantity, and
when consuming the quantity and the unit leaves nothing the name falls back
to the whole trimmed raw input. -/
theorem parseIngredient_positive_or_nan (raw0 : Str) (h : trimStr raw0 ≠ []) :
    (jsPos (parseIngredient raw0).quantity = true ∨
      (parseIngredient raw0).quantity = JSNum.nan) ∧
    (parseIngredient raw0).name ≠ [] ∧
    parseIngredient (strOf "0 tsp vanilla") = parseIngredient (strOf "tsp vanilla") ∧
    (parseIngredient (strOf "0 tsp vanilla")).quantity = JSNum.fin 1 ∧
    (parseIngredient (strOf "1 cup")).name = strOf "1 cup" := by
  have hp : parseIngredient raw0 =
      parseIngredientCore (trimStr raw0) (trimStr (removeParens (trimStr raw0))) := by
    unfold parseIngredient parseIngredientTrimmed
    rw [if_neg (by simpa using h)]
  refine ⟨?_, ?_, by decide, by decide, by decide⟩
  · rw [hp]; exact parseIngredientCore_quantity _ _
  · rw [hp]; exact parseIngredientCore_name_ne _ _ h

/-- Witness for the amended claim C9 at a concrete ingredient string. -/
theorem parseIngredient_positive_or_nan_witness :
    (jsPos (parseIngredient (strOf "2 cups rice")).quantity = true ∨
      (parseIngredient (strOf "2 cups rice")).quantity = JSNum.nan) ∧
    (parseIngredient (strOf "2 cups rice")).name ≠ [] ∧
    parseIngredient (strOf "0 tsp vanilla") = parseIngredient (strOf "tsp vanilla") ∧
    (parseIngredient (strOf "0 tsp vanilla")).quantity = JSNum.fin 1 ∧
    (parseIngredient (strOf "1 cup")).name = strOf "1 cup" :=
  parseIngredient_positive_or_nan (strOf "2 cups rice") (by decide)

-- ---------------------------------------------------------------------------
-- C3: the push-phase selection
-- ---------------------------------------------------------------------------

theorem getRecipesUpdatedSince_mem (db : RecipeDB) (since : ℕ) (r : LocalRecipe) :
    r ∈ getRecipesUpdatedSince db since ↔
      r ∈ db ∧ since < r.updatedAt ∧
        (r.syncedAt = none ∨ ∃ s, r.syncedAt = some s ∧ s < r.updatedAt) := by
  unfold getRecipesUpdatedSince
  rw [(List.perm_insertionSort _ _).mem_iff, List.mem_filter]
  constructor
  · rintro ⟨hmem, hp⟩
    refine ⟨hmem, ?_, ?_⟩
    · have := (Bool.and_eq_true _ _).mp hp
      simpa using this.1
    · have := ((Bool.and_eq_true _ _).mp hp).2
      cases hsy : r.syncedAt with
      | none => left; rfl
      | some s =>
          right
          rw [hsy] at this
          simp at this
          exact ⟨s, rfl, this⟩
  · rintro ⟨hmem, hlt, hsy⟩
    refine ⟨hmem, ?_⟩
    rw [Bool.and_eq_true]
    refine ⟨by simpa using hlt, ?_⟩
    rcases hsy with h | ⟨s, h, hs⟩
    · rw [h]
    · rw [h]; simpa using hs

/-- Claim C3 as stated is false on the code: a local recipe that has never
been synced (synced_at null) but whose updated_at precedes the stored
lastSyncAt is not selected for push, because the query also requires
updated_at > lastSyncAt.  Here updated_at = 5 > epoch = coalesce(null, 0),
yet performSync with lastSyncAt = 10 pushes nothing. -/
theorem performSync_skips_stale_unsynced :
    ((⟨"r1", "n", 5, none⟩ : LocalRecipe) ∈ ([⟨"r1", "n", 5, none⟩] : RecipeDB)) ∧
    ((⟨"r1", "n", 5, none⟩ : LocalRecipe).syncedAt.getD 0 <
      (⟨"r1", "n", 5, none⟩ : LocalRecipe).updatedAt) ∧
    (performSync (some "t") [⟨"r1", "n", 5, none⟩] (some 10) [] 20).pushedIds = [] := by
  decide

/-- Claim C3, amended: the push phase selects exactly the local recipes (as
of after the pull phase) with updated_at > coalesce(lastSyncAt, epoch) AND
(synced_at null OR updated_at > synced_at); a recipe whose updated_at does
not exceed the stored lastSyncAt is not pushed even when its own synced_at
is older or null. -/
theorem performSync_push_selection (db : RecipeDB) (since : ℕ) (r : LocalRecipe)
    (token : String) (lastSync : Option ℕ) (srv : List ServerRecipe) (now : ℕ) :
    (r ∈ getRecipesUpdatedSince db since ↔
      r ∈ db ∧ since < r.updatedAt ∧
        (r.syncedAt = none ∨ ∃ s, r.syncedAt = some s ∧ s < r.updatedAt)) ∧
    (performSync (some token) db lastSync srv now).pushedIds =
      (getRecipesUpdatedSince (pullPhase db srv now).db (lastSync.getD 0)).map (·.id) :=
  ⟨getRecipesUpdatedSince_mem db since r, rfl⟩

-- ---------------------------------------------------------------------------
-- C4: pull overwrites an unmodified local recipe without conflict
-- ---------------------------------------------------------------------------

theorem getRecipeById_update (db : RecipeDB) (id : String) (u : RecipeUpdate)
    (now : ℕ) :
    getRecipeById (updateRecipeS db id u now) id =
      (getRecipeById db id).map (fun r =>
        { id := r.id, name := u.name.getD r.name, updatedAt := now,
          syncedAt := u.syncedAt.getD r.syncedAt }) := by
  unfold getRecipeById updateRecipeS
  rw [List.find?_map]
  have hpred : ((fun r : LocalRecipe => decide (r.id = id)) ∘
      (fun r : LocalRecipe =>
        if r.id = id then
          { id := r.id, name := u.name.getD r.name, updatedAt := now,
            syncedAt := u.syncedAt.getD r.syncedAt }
        else r)) = (fun r : LocalRecipe => decide (r.id = id)) := by
    funext r
    by_cases h : r.id = id <;> simp [h]
  rw [hpred]
  cases hf : db.find? (fun r => decide (r.id = id)) with
  | none => rfl
  | some r =>
      have := List.find?_some hf
      simp at this
      simp [this]

/-- Claim C4: during the sync pull, for a server recipe whose id matches an
existing local row with local.updated_at ≤ local.synced_at, no conflict is
emitted, the pulled counter advances, and the local row is overwritten with
the server version (content from the server, updated_at and synced_at
stamped to the sync time, per updateRecipe and normalizeServerRecipe). -/
theorem pullStep_no_conflict_overwrites (st : PullState) (server : ServerRecipe)
    (now : ℕ) (lm : LocalRecipe) (s : ℕ)
    (hfind : getRecipeById st.db server.id = some lm)
    (hs : lm.syncedAt = some s) (hle : lm.updatedAt ≤ s) :
    (pullStep st server now).conflicts = st.conflicts ∧
    (pullStep st server now).pulled = st.pulled + 1 ∧
    getRecipeById (pullStep st server now).db server.id =
      some { id := lm.id, name := server.name, updatedAt := now,
             syncedAt := some now } := by
  have hid : lm.id = server.id := by
    have := List.find?_some hfind
    simpa using this
  unfold pullStep
  simp only [normalizeServerRecipe]
  rw [hfind]
  simp only []
  rw [hs]
  simp only []
  have hlt : decide (s < lm.updatedAt) = false := by
    simp
    omega
  simp only [hlt, Bool.false_eq_true, if_false]
  refine ⟨trivial, trivial, ?_⟩
  rw [hid]
  rw [getRecipeById_update st.db server.id _ now]
  rw [hfind]
  simp [updateOfNormalized, hid]

/-- Witness for claim C4 at a concrete database and server recipe. -/
theorem pullStep_no_conflict_overwrites_witness :
    (pullStep ⟨[⟨"a", "old", 3, some 5⟩], [], 0⟩ ⟨"a", "new", 7⟩ 9).conflicts =
      ([] : List SyncConflictS) ∧
    (pullStep ⟨[⟨"a", "old", 3, some 5⟩], [], 0⟩ ⟨"a", "new", 7⟩ 9).pulled = 1 ∧
    getRecipeById (pullStep ⟨[⟨"a", "old", 3, some 5⟩], [], 0⟩ ⟨"a", "new", 7⟩ 9).db
        "a" = some ⟨"a", "new", 9, some 9⟩ :=
  pullStep_no_conflict_overwrites ⟨[⟨"a", "old", 3, some 5⟩], [], 0⟩ ⟨"a", "new", 7⟩
    9 ⟨"a", "old", 3, some 5⟩ 5 (by decide) (by decide) (by decide)

-- ---------------------------------------------------------------------------
-- C8 and C10: the reroll frame and the day-totals invariant
-- ---------------------------------------------------------------------------

theorem rerollApply_frame (plan : MealPlanR) (slot oldId : String)
    (best : RecipeR) (now : ℕ) :
    (rerollApply plan slot oldId best now).id = plan.id ∧
    (rerollApply plan slot oldId best now).label = plan.label ∧
    (rerollApply plan slot oldId best now).selected = plan.selected ∧
    (rerollApply plan slot oldId best now).days.length = plan.days.length ∧
    (rerollApply plan slot oldId best now).macroSummary =
      computeMacroSummary (rerollApply plan slot oldId best now).days ∧
    ∀ (i : ℕ) (d0 d1 : DayPlanR), plan.days[i]? = some d0 →
      (rerollApply plan slot oldId best now).days[i]? = some d1 →
      d1.day = d0.day ∧
      d1.meals.length = d0.meals.length ∧
      d1 = recomputeDayTotals { d0 with meals := d1.meals } ∧
      ∀ (j : ℕ) (m0 m1 : MealAssignmentR),
        d0.meals[j]? = some m0 → d1.meals[j]? = some m1 →
        m1.slot = m0.slot ∧
        (m0.slot ≠ slot → m1 = m0) ∧
        (m0.recipe.id ≠ oldId → m1 = m0) ∧
        (m0.slot = slot → m0.recipe.id = oldId →
          m1 = { m0 with recipe := best }) := by
  refine ⟨rfl, rfl, rfl, by simp [rerollApply], rfl, ?_⟩
  intro i d0 d1 h0 h1
  have hd1 : d1 = recomputeDayTotals
      { d0 with meals := d0.meals.map (fun m =>
          if m.slot = slot && m.recipe.id = oldId
          then { m with recipe := best } else m) } := by
    have hmap : (rerollApply plan slot oldId best now).days[i]? =
        (plan.days[i]?).map (fun dp =>
          recomputeDayTotals
            { dp with meals := dp.meals.map (fun m =>
                if m.slot = slot && m.recipe.id = oldId
                then { m with recipe := best } else m) }) := by
      simp [rerollApply, List.getElem?_map]
    rw [hmap, h0] at h1
    simpa using h1.symm
  subst hd1
  refine ⟨rfl, by simp [recomputeDayTotals], by simp [recomputeDayTotals], ?_⟩
  intro j m0 m1 hm0 hm1
  have hm1e : m1 = (if m0.slot = slot && m0.recipe.id = oldId
      then { m0 with recipe := best } else m0) := by
    have hmap : (recomputeDayTotals
        { d0 with meals := d0.meals.map (fun m =>
            if m.slot = slot && m.recipe.id = oldId
            then { m with recipe := best } else m) }).meals[j]? =
        (d0.meals[j]?).map (fun m =>
          if m.slot = slot && m.recipe.id = oldId
          then { m with recipe := best } else m) := by
      simp [recomputeDayTotals, List.getElem?_map]
    rw [hmap, hm0] at hm1
    simpa using hm1.symm
  subst hm1e
  constructor
  · split
    · rfl
    · rfl
  constructor
  · intro hns
    rw [if_neg]
    intro hc
    rw [Bool.and_eq_true] at hc
    exact hns (by simpa using hc.1)
  constructor
  · intro hni
    rw [if_neg]
    intro hc
    rw [Bool.and_eq_true] at hc
    exact hni (by simpa using hc.2)
  · intro hsl hid
    rw [if_pos]
    rw [Bool.and_eq_true]
    exact ⟨by simpa using hsl, by simpa using hid⟩

/-- Claim C8: a successful rerollMeal changes the plan only by replacing, at
the requested slot, every assignment of the replaced recipe with the single
chosen recipe; all other meal assignments are unchanged, slots stay in
place, and day totals plus the plan macro summary are recomputed from the
updated days (plan id, label and selected flag are untouched). -/
theorem rerollMeal_frame (plan : MealPlanR) (day slot : String)
    (allRecipes : List RecipeR) (rand now : ℕ) (res : MealPlanR × RecipeR)
    (old : RecipeR)
    (h : rerollMeal plan day slot allRecipes rand now = some res)
    (hcur : currentRecipeAt plan day slot = some old) :
    res.1.id = plan.id ∧ res.1.label = plan.label ∧
    res.1.selected = plan.selected ∧
    res.1.days.length = plan.days.length ∧
    res.1.macroSummary = computeMacroSummary res.1.days ∧
    ∀ (i : ℕ) (d0 d1 : DayPlanR), plan.days[i]? = some d0 →
      res.1.days[i]? = some d1 →
      d1.day = d0.day ∧
      d1.meals.length = d0.meals.length ∧
      d1 = recomputeDayTotals { d0 with meals := d1.meals } ∧
      ∀ (j : ℕ) (m0 m1 : MealAssignmentR),
        d0.meals[j]? = some m0 → d1.meals[j]? = some m1 →
        m1.slot = m0.slot ∧
        (m0.slot ≠ slot → m1 = m0) ∧
        (m0.recipe.id ≠ old.id → m1 = m0) ∧
        (m0.slot = slot → m0.recipe.id = old.id →
          m1 = { m0 with recipe := res.2 }) := by
  simp only [rerollMeal] at h
  split at h
  · exact absurd h (by simp)
  · rename_i targetDay hday
    split at h
    · exact absurd h (by simp)
    · rename_i targetMeal hmeal
      split at h
      · exact absurd h (by simp)
      · rename_i c0 crest hcand
        injection h with h1
        have hold : old = targetMeal.recipe := by
          unfold currentRecipeAt at hcur
          rw [hday] at hcur
          simp only [] at hcur
          rw [hmeal] at hcur
          simp at hcur
          exact hcur.symm
        subst hold
        subst h1
        exact rerollApply_frame plan slot targetMeal.recipe.id _ now

set_option maxRecDepth 4000 in
/-- Witness for claim C8 at the concrete sample plan. -/
theorem rerollMeal_frame_witness :
    rerolledResult.1.days.length = samplePlanR.days.length ∧
    rerolledResult.1.macroSummary = computeMacroSummary rerolledResult.1.days ∧
    rerolledDay = recomputeDayTotals { staleDay with meals := rerolledDay.meals } ∧
    (⟨"breakfast", recB⟩ : MealAssignmentR) =
      { (⟨"breakfast", recA⟩ : MealAssignmentR) with recipe := rerolledResult.2 } :=
  have H := rerollMeal_frame samplePlanR "Day 1" "breakfast" [recA, recB] 0 5
    rerolledResult recA (by with_unfolding_all decide) (by with_unfolding_all decide)
  have Hd := H.2.2.2.2.2 0 staleDay rerolledDay (by with_unfolding_all decide)
    (by with_unfolding_all decide)
  ⟨H.2.2.2.1, H.2.2.2.2.1, Hd.2.2.1,
    (Hd.2.2.2 0 ⟨"breakfast", recA⟩ ⟨"breakfast", recB⟩ (by with_unfolding_all decide)
      (by with_unfolding_all decide)).2.2.2 rfl rfl⟩

/-- Claim C10: every day of the plan returned by a successful rerollMeal
satisfies the day-totals cache invariant: the four cached totals equal the
sums of the corresponding macro fields over the meals of that day, on
modified and unmodified days alike (stale input totals are repaired). -/
theorem rerollMeal_day_totals (plan : MealPlanR) (day slot : String)
    (allRecipes : List RecipeR) (rand now : ℕ) (res : MealPlanR × RecipeR)
    (h : rerollMeal plan day slot allRecipes rand now = some res) :
    ∀ d ∈ res.1.days,
      d.totalCalories = (d.meals.map (·.recipe.calories)).sum ∧
      d.totalProtein = (d.meals.map (·.recipe.protein)).sum ∧
      d.totalFat = (d.meals.map (·.recipe.fat)).sum ∧
      d.totalCarbs = (d.meals.map (·.recipe.carbs)).sum := by
  simp only [rerollMeal] at h
  split at h
  · exact absurd h (by simp)
  · split at h
    · exact absurd h (by simp)
    · split at h
      · exact absurd h (by simp)
      · injection h with h1
        subst h1
        intro d hd
        simp only [rerollApply, List.mem_map] at hd
        obtain ⟨dp, _, hdp⟩ := hd
        subst hdp
        simp [recomputeDayTotals]

set_option maxRecDepth 4000 in
/-- Witness for claim C10: the stale cached calorie total 999 of the input
day is repaired to the true sum by the reroll. -/
theorem rerollMeal_day_totals_witness :
    rerolledDay.totalCalories = (rerolledDay.meals.map (·.recipe.calories)).sum ∧
    rerolledDay.totalProtein = (rerolledDay.meals.map (·.recipe.protein)).sum ∧
    rerolledDay.totalFat = (rerolledDay.meals.map (·.recipe.fat)).sum ∧
    rerolledDay.totalCarbs = (rerolledDay.meals.map (·.recipe.carbs)).sum :=
  rerollMeal_day_totals samplePlanR "Day 1" "breakfast" [recA, recB] 0 5
    rerolledResult (by with_unfolding_all decide) rerolledDay
    (by with_unfolding_all decide)

-- ---------------------------------------------------------------------------
-- C6: the block partition and the block-grouping constraints
-- ---------------------------------------------------------------------------

theorem mkBlocksFrom_join (fuel : ℕ) : ∀ (bs n start : ℕ), n - start ≤ fuel →
    0 < bs → (mkBlocksFrom fuel bs n start).flatten = List.range' start (n - start) := by
  induction fuel with
  | zero =>
      intro bs n start hf _
      have : n - start = 0 := Nat.le_zero.mp hf
      rw [this]
      simp [mkBlocksFrom]
  | succ fuel ih =>
      intro bs n start hf hbs
      rw [mkBlocksFrom]
      by_cases h : start < n
      · rw [if_pos ⟨h, hbs⟩]
        simp only [List.flatten_cons]
        have he1 : start < min (start + bs) n := by omega
        have he2 : min (start + bs) n ≤ n := by omega
        rw [ih bs n (min (start + bs) n) (by omega) hbs]
        have happ : List.range' start (min (start + bs) n - start) ++
            List.range' (start + (min (start + bs) n - start)) (n - min (start + bs) n) =
            List.range' start ((min (start + bs) n - start) + (n - min (start + bs) n)) := by
          rw [← List.range'_append]
          simp
          omega
        rw [show start + (min (start + bs) n - start) = min (start + bs) n by omega] at happ
        rw [happ]
        congr 1
        omega
      · rw [if_neg (by omega)]
        have : n - start = 0 := by omega
        rw [this]
        rfl

theorem mkBlocksFrom_shape (fuel : ℕ) : ∀ (bs n start : ℕ),
    ∀ b ∈ mkBlocksFrom fuel bs n start,
      (∃ s, b = List.range' s b.length) ∧ 0 < b.length ∧ b.length ≤ bs := by
  induction fuel with
  | zero => intro bs n start b hb; simp [mkBlocksFrom] at hb
  | succ fuel ih =>
      intro bs n start b hb
      rw [mkBlocksFrom] at hb
      by_cases h : start < n ∧ 0 < bs
      · rw [if_pos h] at hb
        simp only [List.mem_cons] at hb
        rcases hb with rfl | hb
        · refine ⟨⟨start, by simp⟩, ?_, ?_⟩ <;> simp <;> omega
        · exact ih bs n _ b hb
      · rw [if_neg h] at hb
        simp at hb

theorem mkBlocksFrom_ne_nil (fuel bs n start : ℕ)
    (h : mkBlocksFrom fuel bs n start ≠ []) :
    0 < fuel ∧ start < n ∧ 0 < bs := by
  cases fuel with
  | zero => simp [mkBlocksFrom] at h
  | succ fuel =>
      rw [mkBlocksFrom] at h
      by_cases hc : start < n ∧ 0 < bs
      · exact ⟨Nat.succ_pos _, hc.1, hc.2⟩
      · rw [if_neg hc] at h; exact absurd rfl h

theorem mkBlocksFrom_full (fuel : ℕ) : ∀ (bs n start : ℕ), ∀ (i : ℕ) (b : List ℕ),
    (mkBlocksFrom fuel bs n start)[i]? = some b →
    ((mkBlocksFrom fuel bs n start)[i+1]?).isSome = true →
    b.length = bs := by
  induction fuel with
  | zero => intro bs n start i b hb _; simp [mkBlocksFrom] at hb
  | succ fuel ih =>
      intro bs n start i b hb hnext
      rw [mkBlocksFrom] at hb hnext
      by_cases h : start < n ∧ 0 < bs
      · rw [if_pos h] at hb hnext
        cases i with
        | zero =>
            simp at hb
            subst hb
            simp at hnext
            have hne : mkBlocksFrom fuel bs n (min (start + bs) n) ≠ [] := by
              intro hc
              rw [hc] at hnext
              simp at hnext
            have := mkBlocksFrom_ne_nil fuel bs n (min (start + bs) n) hne
            simp
            omega
        | succ j =>
            simp only [List.getElem?_cons_succ] at hb hnext
            exact ih bs n _ j b hb hnext
      · rw [if_neg h] at hb; simp at hb

/-- Claim C6 as stated is false on the code in one respect: the partition
has blocks of size min(firstRecipeFrequency, numDays) only up to the last
block, which holds the remainder.  With one breakfast recipe of frequency
limit 2 and five days the blocks are [0,1], [2,3], [4], and the last has
size 1, not min(2,5) = 2. -/
theorem mkBlocks_last_block_short :
    sampleFreqOf blockByCategory = 2 ∧
    mkBlocks (min (sampleFreqOf blockByCategory) 5) 5 = [[0, 1], [2, 3], [4]] ∧
    ¬ (∀ b ∈ mkBlocks (min (sampleFreqOf blockByCategory) 5) 5,
        b.length = min (sampleFreqOf blockByCategory) 5) := by decide

/-- Claim C6, amended: for a positive first-recipe frequency limit and at
least one day, the model partitions the day indices into contiguous blocks
(each a contiguous range, together forming range numDays) of size
min(firstRecipeFrequency, numDays), except that the last block may be
shorter (it is never empty and never longer); and for every block, every
non-first day d of the block, every active slot s and every recipe r
eligible for s, the constraint list contains the equality constraint
x[r,d,s] = x[r,block_first,s]. -/
theorem blockConstraints_spec (byCategory : ByCategory) (activeSlots : List String)
    (numDays : ℕ) (h1 : 1 ≤ sampleFreqOf byCategory) (h2 : 1 ≤ numDays) :
    (mkBlocks (min (sampleFreqOf byCategory) numDays) numDays).flatten =
      List.range numDays ∧
    (∀ b ∈ mkBlocks (min (sampleFreqOf byCategory) numDays) numDays,
      (∃ s, b = List.range' s b.length) ∧ 0 < b.length ∧
        b.length ≤ min (sampleFreqOf byCategory) numDays) ∧
    (∀ (i : ℕ) (b : List ℕ),
      (mkBlocks (min (sampleFreqOf byCategory) numDays) numDays)[i]? = some b →
      ((mkBlocks (min (sampleFreqOf byCategory) numDays) numDays)[i + 1]?).isSome = true →
      b.length = min (sampleFreqOf byCategory) numDays) ∧
    (∀ block ∈ mkBlocks (min (sampleFreqOf byCategory) numDays) numDays,
      ∀ firstDay rest, block = firstDay :: rest →
      ∀ d ∈ rest, ∀ slot ∈ activeSlots, ∀ r ∈ recipesFor byCategory slot,
        blockCon r d firstDay slot ∈ blockConstraints byCategory activeSlots numDays) := by
  have hbs : 0 < min (sampleFreqOf byCategory) numDays := by omega
  refine ⟨?_, ?_, ?_, ?_⟩
  · unfold mkBlocks
    rw [mkBlocksFrom_join numDays _ numDays 0 (by omega) hbs]
    rw [List.range_eq_range']
    congr 1
  · exact fun b hb => mkBlocksFrom_shape numDays _ numDays 0 b hb
  · exact fun i b hb hnext => mkBlocksFrom_full numDays _ numDays 0 i b hb hnext
  · intro block hblock firstDay rest hbr d hd slot hslot r hr
    unfold blockConstraints
    rw [List.mem_flatMap]
    refine ⟨block, hblock, ?_⟩
    rw [hbr]
    simp only []
    rw [List.mem_flatMap]
    refine ⟨d, hd, ?_⟩
    rw [List.mem_flatMap]
    refine ⟨slot, hslot, ?_⟩
    exact List.mem_map_of_mem _ hr

/-- Witness for the amended claim C6 at the concrete one-recipe grouping. -/
theorem blockConstraints_spec_witness :
    (mkBlocks (min (sampleFreqOf blockByCategory) 5) 5).flatten = List.range 5 ∧
    blockCon ⟨"A", 2⟩ 1 0 "breakfast" ∈
      blockConstraints blockByCategory ["breakfast"] 5 :=
  have H := blockConstraints_spec blockByCategory ["breakfast"] 5 (by decide) (by decide)
  ⟨H.1, H.2.2.2 [0, 1] (by decide) 0 [1] rfl 1 (by decide) "breakfast" (by decide)
    ⟨"A", 2⟩ (by decide)⟩

-- ---------------------------------------------------------------------------
-- C5: plan labels and growth of the reuse-penalty set
-- ---------------------------------------------------------------------------

theorem solveSteps_names_sublist (attempt : ℕ → Finset String → Option SolvedPlanS) :
    ∀ (l : List ℕ) (used : Finset String),
      List.Sublist
        (((solveSteps attempt used l).filterMap (·.2)).map (·.name))
        (l.map planLabel) := by
  intro l
  induction l with
  | nil => intro used; simp [solveSteps]
  | cons i rest ih =>
      intro used
      simp only [solveSteps]
      cases hatt : attempt i (if 0 < i then used else ∅) with
      | some p =>
          simp only [List.filterMap_cons, List.map_cons]
          exact List.Sublist.cons₂ _ (ih _)
      | none =>
          simp only [List.filterMap_cons, List.map_cons]
          exact List.Sublist.cons _ (ih used)

theorem solveSteps_names_all_success (attempt : ℕ → Finset String → Option SolvedPlanS) :
    ∀ (l : List ℕ) (used : Finset String),
      (∀ e ∈ solveSteps attempt used l, (e.2).isSome = true) →
      ((solveSteps attempt used l).filterMap (·.2)).map (·.name) = l.map planLabel := by
  intro l
  induction l with
  | nil => intro used _; simp [solveSteps]
  | cons i rest ih =>
      intro used hall
      simp only [solveSteps] at hall ⊢
      cases hatt : attempt i (if 0 < i then used else ∅) with
      | some p =>
          rw [hatt] at hall
          simp only [List.filterMap_cons, List.map_cons]
          rw [ih _ (fun e he => hall e (List.mem_cons_of_mem _ he))]
      | none =>
          rw [hatt] at hall
          have := hall _ (List.mem_cons_self _ _)
          simp at this

theorem solveSteps_getElem_zero_fst (attempt : ℕ → Finset String → Option SolvedPlanS)
    (u : Finset String) (i : ℕ) (rest : List ℕ)
    (e : Finset String × Option SolvedPlanS)
    (h : (solveSteps attempt u (i :: rest))[0]? = some e) :
    e.1 = if 0 < i then u else ∅ := by
  simp only [solveSteps] at h
  split at h <;>
  · rw [List.getElem?_cons_zero] at h
    injection h with h
    subst h
    rfl

theorem solveSteps_range_chain (attempt : ℕ → Finset String → Option SolvedPlanS) :
    ∀ (m s : ℕ) (used : Finset String), (used = ∅ ∨ 0 < s) →
    ∀ (k : ℕ) (e e' : Finset String × Option SolvedPlanS),
      (solveSteps attempt used (List.range' s m))[k]? = some e →
      (solveSteps attempt used (List.range' s m))[k + 1]? = some e' →
      e'.1 = e.1 ∪ (match e.2 with
        | some p => (planRecipeIds p.planData).toFinset
        | none => ∅) := by
  intro m
  induction m with
  | zero => intro s used _ k e e' he _; simp [solveSteps] at he
  | succ m ih =>
      intro s used hinv k e e' he he'
      rw [List.range'_succ] at he he'
      simp only [solveSteps] at he he'
      have hpen : (if 0 < s then used else ∅) = used := by
        rcases hinv with h | h
        · subst h; split <;> rfl
        · rw [if_pos h]
      rw [hpen] at he he'
      cases hatt : attempt s used with
      | some p =>
          rw [hatt] at he he'
          simp only [] at he he'
          cases k with
          | zero =>
              rw [List.getElem?_cons_zero] at he
              injection he with he
              subst he
              rw [List.getElem?_cons_succ] at he'
              cases m with
              | zero => simp [solveSteps, List.range'] at he'
              | succ m2 =>
                  rw [List.range'_succ] at he'
                  have h0 := solveSteps_getElem_zero_fst attempt _ _ _ _ he'
                  rw [if_pos (Nat.succ_pos s)] at h0
                  exact h0
          | succ k2 =>
              rw [List.getElem?_cons_succ] at he he'
              exact ih (s + 1) _ (Or.inr (Nat.succ_pos s)) k2 e e' he he'
      | none =>
          rw [hatt] at he he'
          simp only [] at he he'
          cases k with
          | zero =>
              rw [List.getElem?_cons_zero] at he
              injection he with he
              subst he
              rw [List.getElem?_cons_succ] at he'
              cases m with
              | zero => simp [solveSteps, List.range'] at he'
              | succ m2 =>
                  rw [List.range'_succ] at he'
                  have h0 := solveSteps_getElem_zero_fst attempt _ _ _ _ he'
                  rw [if_pos (Nat.succ_pos s)] at h0
                  simp only []
                  rw [Finset.union_empty]
                  exact h0
          | succ k2 =>
              rw [List.getElem?_cons_succ] at he he'
              exact ih (s + 1) _ (Or.inr (Nat.succ_pos s)) k2 e e' he he'

/-- Claim C5 as stated is false in its label half: when the single-plan
solve fails at some index (all three tiers can fail or time out, and the
loop continues), the label of that index is skipped.  With an oracle that
fails at index 0 and succeeds at index 1, solve returns one plan labeled
"Plan 2", not the consecutive labels "Plan 1", ..., "Plan n". -/
theorem solve_skip_labels :
    (MealPlanSolver.solve skipAttempt 2).map (·.name) = ["Plan 2"] ∧
    (MealPlanSolver.solve skipAttempt 2).map (·.name) ≠
      (List.range (MealPlanSolver.solve skipAttempt 2).length).map planLabel := by
  decide

/-- Claim C5, amended: the labels of the returned plans are a subsequence
of "Plan 1", ..., "Plan numPlans" in order (plan of trace index i is
labeled "Plan i+1"), with equality when every per-index attempt succeeds;
the penalty set passed to the first attempt is empty, and the penalty set
of each successive trace entry is the previous entry penalty set united
with the recipe ids chosen at that entry (nothing added on failure), so the
penalty sets grow monotonically. -/
theorem solve_labels_and_reuse (attempt : ℕ → Finset String → Option SolvedPlanS)
    (numPlans : ℕ) :
    List.Sublist ((MealPlanSolver.solve attempt numPlans).map (·.name))
      ((List.range numPlans).map planLabel) ∧
    ((∀ e ∈ solveTrace attempt numPlans, (e.2).isSome = true) →
      (MealPlanSolver.solve attempt numPlans).map (·.name) =
        (List.range numPlans).map planLabel) ∧
    (∀ e : Finset String × Option SolvedPlanS,
      (solveTrace attempt numPlans)[0]? = some e → e.1 = ∅) ∧
    (∀ (k : ℕ) (e e' : Finset String × Option SolvedPlanS),
      (solveTrace attempt numPlans)[k]? = some e →
      (solveTrace attempt numPlans)[k + 1]? = some e' →
      e'.1 = e.1 ∪ (match e.2 with
        | some p => (planRecipeIds p.planData).toFinset
        | none => ∅) ∧ e.1 ⊆ e'.1) := by
  refine ⟨solveSteps_names_sublist attempt _ _, solveSteps_names_all_success attempt _ _,
    ?_, ?_⟩
  · intro e he
    cases numPlans with
    | zero => simp [solveTrace, solveSteps] at he
    | succ n =>
        unfold solveTrace at he
        rw [List.range_eq_range', List.range'_succ] at he
        have h0 := solveSteps_getElem_zero_fst attempt _ _ _ _ he
        rw [h0]
        split <;> rfl
  · intro k e e' he he'
    unfold solveTrace at he he'
    rw [List.range_eq_range'] at he he'
    have hu := solveSteps_range_chain attempt numPlans 0 ∅ (Or.inl rfl) k e e' he he'
    exact ⟨hu, hu ▸ Finset.subset_union_left⟩

/-- Witness for the amended claim C5 at the always-succeeding oracle with
two plans: the labels are exactly "Plan 1", "Plan 2", the first penalty set
is empty, and the second penalty set is the first united with the chosen
recipe ids. -/
theorem solve_labels_and_reuse_witness :
    ((MealPlanSolver.solve okAttempt 2).map (·.name) = (List.range 2).map planLabel) ∧
    ((∅, some ⟨"Plan 1", [("Day 1", [("breakfast", some "A")])]⟩) :
        Finset String × Option SolvedPlanS).1 = ∅ ∧
    (({"A"}, some ⟨"Plan 2", [("Day 1", [("breakfast", some "A")])]⟩) :
        Finset String × Option SolvedPlanS).1 =
      ((∅, some ⟨"Plan 1", [("Day 1", [("breakfast", some "A")])]⟩) :
          Finset String × Option SolvedPlanS).1 ∪
        (match ((∅, some ⟨"Plan 1", [("Day 1", [("breakfast", some "A")])]⟩) :
            Finset String × Option SolvedPlanS).2 with
          | some p => (planRecipeIds p.planData).toFinset
          | none => ∅) :=
  ⟨(solve_labels_and_reuse okAttempt 2).2.1 (by decide),
   (solve_labels_and_reuse okAttempt 2).2.2.1 _ (by decide),
   ((solve_labels_and_reuse okAttempt 2).2.2.2 0 _ _ (by decide) (by decide)).1⟩

-- ---------------------------------------------------------------------------
-- C1: order dependence of the shopping-list aggregation
-- ---------------------------------------------------------------------------

theorem scaledIngredients_eq_visits (p : PlanDataS) (recipes : List (Str × ShoppingRecipe)) :
    scaledIngredients p recipes = (planVisits p).flatMap (visitScaled recipes) := by
  unfold scaledIngredients planVisits
  rw [List.flatMap_assoc]

theorem aggStep_eq (acc : List (Str × AggVal)) (e : Str × ℚ) :
    aggStep acc e =
      if entryValid e = true then
        ((if (acc.find? (fun p => p.1 = entryKey e)).isSome = true then acc
          else acc ++ [(entryKey e, ⟨JSNum.fin 0, [], strOf "other"⟩)]).map
          (fun p => if p.1 = entryKey e then
            (p.1, aggMerge p.2 (parseIngredient e.1) e.2) else p))
      else acc := by
  cases h : (entryKey e).isEmpty || decide (entryKey e ∈ SKIP_INGREDIENTS) with
  | false =>
      have hv : entryValid e = true := by rw [entryValid, h]; rfl
      rw [if_pos hv]
      simp only [aggStep]
      rw [show ((normalizeName (parseIngredient e.1).name).isEmpty
          || decide (normalizeName (parseIngredient e.1).name ∈ SKIP_INGREDIENTS))
          = false from h]
      simp only [Bool.false_eq_true, if_false]
      rfl
  | true =>
      have hv : ¬ entryValid e = true := by rw [entryValid, h]; simp
      rw [if_neg hv]
      simp only [aggStep]
      rw [show ((normalizeName (parseIngredient e.1).name).isEmpty
          || decide (normalizeName (parseIngredient e.1).name ∈ SKIP_INGREDIENTS))
          = true from h]
      simp only [if_true]

theorem aggStep_map_fst (key : Str) (parsed : ParsedIngredient) (scale : ℚ)
    (l : List (Str × AggVal)) :
    (l.map (fun p => if p.1 = key then (p.1, aggMerge p.2 parsed scale) else p)).map (·.1) =
      l.map (·.1) := by
  rw [List.map_map]
  apply List.map_congr_left
  intro a _
  dsimp only [Function.comp]
  split <;> rfl

theorem aggStep_fst (acc : List (Str × AggVal)) (e : Str × ℚ) :
    (aggStep acc e).map (·.1) =
      if entryValid e = true then
        (if (acc.find? (fun p => p.1 = entryKey e)).isSome = true then acc.map (·.1)
         else acc.map (·.1) ++ [entryKey e])
      else acc.map (·.1) := by
  rw [aggStep_eq]
  cases hv : entryValid e with
  | true =>
      simp only [hv, if_true]
      cases hp : (acc.find? (fun p => p.1 = entryKey e)).isSome with
      | true =>
          simp only [hp, if_true]
          exact aggStep_map_fst _ _ _ acc
      | false =>
          simp only [hp, Bool.false_eq_true, if_false]
          rw [aggStep_map_fst, List.map_append]
          simp only [List.map_cons, List.map_nil]
  | false =>
      simp only [hv, Bool.false_eq_true, if_false]

theorem validKeys_cons (e : Str × ℚ) (rest : List (Str × ℚ)) (k : Str) :
    k ∈ validKeys (e :: rest) ↔
      ((entryValid e = true ∧ entryKey e = k) ∨ k ∈ validKeys rest) := by
  unfold validKeys
  rw [List.filter_cons]
  cases hv : entryValid e with
  | true =>
      rw [if_pos rfl]
      simp only [List.map_cons, List.mem_cons, eq_self_iff_true, true_and]
      constructor
      · rintro (h | h)
        · exact Or.inl h.symm
        · exact Or.inr h
      · rintro (h | h)
        · exact Or.inl h.symm
        · exact Or.inr h
  | false =>
      rw [if_neg Bool.false_ne_true]
      simp only [Bool.false_eq_true, false_and, false_or]

theorem foldl_aggStep_mem (k : Str) : ∀ (l : List (Str × ℚ)) (acc : List (Str × AggVal)),
    (k ∈ (l.foldl aggStep acc).map (·.1)) ↔
      (k ∈ acc.map (·.1) ∨ k ∈ validKeys l) := by
  intro l
  induction l with
  | nil =>
      intro acc
      simp only [List.foldl_nil, validKeys, List.filter_nil, List.map_nil,
        List.not_mem_nil, or_false]
  | cons e rest ih =>
      intro acc
      rw [List.foldl_cons, ih, validKeys_cons]
      have hk : k ∈ (aggStep acc e).map (·.1) ↔
          (k ∈ acc.map (·.1) ∨ (entryValid e = true ∧ entryKey e = k)) := by
        rw [aggStep_fst]
        cases hv : entryValid e with
        | false =>
            simp only [Bool.false_eq_true, if_false, false_and, or_false]
        | true =>
            rw [if_pos rfl]
            simp only [eq_self_iff_true, true_and]
            cases hp : (acc.find? (fun p => p.1 = entryKey e)).isSome with
            | true =>
                rw [if_pos rfl]
                constructor
                · exact fun h => Or.inl h
                · rintro (h | hkey)
                  · exact h
                  · rcases List.find?_isSome.mp (by rw [hp]) with ⟨x, hx, hpx⟩
                    have hx1 : x.1 = entryKey e := of_decide_eq_true hpx
                    subst hkey
                    rw [← hx1]
                    exact List.mem_map_of_mem _ hx
            | false =>
                rw [if_neg Bool.false_ne_true]
                simp only [List.mem_append, List.mem_singleton]
                constructor
                · rintro (h | h)
                  · exact Or.inl h
                  · exact Or.inr h.symm
                · rintro (h | h)
                  · exact Or.inl h
                  · exact Or.inr h.symm
      rw [hk]
      rw [or_assoc]

theorem foldl_aggStep_nodup : ∀ (l : List (Str × ℚ)) (acc : List (Str × AggVal)),
    ((acc.map (·.1)).Nodup) → (((l.foldl aggStep acc).map (·.1)).Nodup) := by
  intro l
  induction l with
  | nil => intro acc h; exact h
  | cons e rest ih =>
      intro acc h
      rw [List.foldl_cons]
      apply ih
      rw [aggStep_fst]
      cases hv : entryValid e with
      | false =>
          rw [if_neg Bool.false_ne_true]
          exact h
      | true =>
          rw [if_pos rfl]
          cases hp : (acc.find? (fun p => p.1 = entryKey e)).isSome with
          | true =>
              rw [if_pos rfl]
              exact h
          | false =>
              rw [if_neg Bool.false_ne_true]
              rw [← List.concat_eq_append]
              apply h.concat
              intro hmem
              rcases List.mem_map.mp hmem with ⟨x, hx, hfst⟩
              have hnone := List.find?_eq_none.mp (Option.not_isSome_iff_eq_none.mp
                (by rw [hp]; exact Bool.false_ne_true)) x hx
              exact hnone (decide_eq_true hfst)

theorem find?_map_upd (key : Str) (parsed : ParsedIngredient) (scale : ℚ)
    (l : List (Str × AggVal)) (k : Str) :
    (l.map (fun p => if p.1 = key then (p.1, aggMerge p.2 parsed scale) else p)).find?
        (fun p => p.1 = k) =
      (l.find? (fun p => p.1 = k)).map
        (fun p => if p.1 = key then (p.1, aggMerge p.2 parsed scale) else p) := by
  rw [List.find?_map]
  have hpred : ((fun p : Str × AggVal => decide (p.1 = k)) ∘
      (fun p => if p.1 = key then (p.1, aggMerge p.2 parsed scale) else p)) =
      (fun p : Str × AggVal => decide (p.1 = k)) := by
    funext p
    simp only [Function.comp_apply]
    have hfst : ((if p.1 = key then (p.1, aggMerge p.2 parsed scale) else p)).1 = p.1 := by
      split <;> rfl
    rw [hfst]
  rw [hpred]

theorem qtyOf_aggStep (k : Str) (acc : List (Str × AggVal)) (e : Str × ℚ) :
    qtyOf k (aggStep acc e) =
      if (entryValid e && decide (entryKey e = k)) = true
      then jsAdd (qtyOf k acc) (entryQty e) else qtyOf k acc := by
  rw [aggStep_eq]
  rw [show entryQty e = jsMulQ (parseIngredient e.1).quantity e.2 from rfl]
  generalize hP : parseIngredient e.1 = P
  generalize hK : entryKey e = K
  cases hv : entryValid e with
  | false =>
      rw [if_neg Bool.false_ne_true]
      rw [if_neg (by rw [Bool.false_and]; exact Bool.false_ne_true)]
  | true =>
      rw [if_pos rfl, Bool.true_and]
      by_cases hkk : K = k
      · rw [if_pos (decide_eq_true hkk)]
        rw [← hkk]
        cases hp : (acc.find? (fun p => p.1 = K)).isSome with
        | true =>
            rw [if_pos rfl]
            rcases Option.isSome_iff_exists.mp hp with ⟨q, hq⟩
            unfold qtyOf
            rw [find?_map_upd, hq]
            have hpq := List.find?_some hq
            have hq1 : q.1 = K := of_decide_eq_true hpq
            simp only [Option.map]
            rw [if_pos hq1]
            simp only [Option.getD, aggMerge]
        | false =>
            rw [if_neg Bool.false_ne_true]
            have hnone : acc.find? (fun p => p.1 = K) = none :=
              Option.not_isSome_iff_eq_none.mp (by rw [hp]; exact Bool.false_ne_true)
            have hfind_sing : List.find? (fun p : Str × AggVal => decide (p.1 = K))
                [((K, ⟨JSNum.fin 0, [], strOf "other"⟩) : Str × AggVal)] =
                some ((K, ⟨JSNum.fin 0, [], strOf "other"⟩) : Str × AggVal) := by
              simp only [List.find?_cons]
              rfl
            unfold qtyOf
            rw [find?_map_upd, List.find?_append, hnone]
            rw [Option.none_or]
            rw [hfind_sing]
            simp only [Option.map]
            rw [if_pos (by trivial)]
            simp only [Option.getD, aggMerge]
      · rw [if_neg (fun h => hkk (of_decide_eq_true h))]
        cases hp : (acc.find? (fun p => p.1 = K)).isSome with
        | true =>
            rw [if_pos rfl]
            unfold qtyOf
            rw [find?_map_upd]
            cases hfk : acc.find? (fun p => p.1 = k) with
            | none => simp only [Option.map, Option.getD]
            | some q =>
                have hpq := List.find?_some hfk
                have hq1 : q.1 = k := of_decide_eq_true hpq
                simp only [Option.map]
                rw [if_neg (by rw [hq1]; exact fun h => hkk h.symm)]
        | false =>
            rw [if_neg Bool.false_ne_true]
            have hfind_sing : List.find? (fun p : Str × AggVal => decide (p.1 = k))
                [((K, ⟨JSNum.fin 0, [], strOf "other"⟩) : Str × AggVal)] = none := by
              simp only [List.find?_cons]
              dsimp only
              rw [decide_eq_false hkk]
              rfl
            unfold qtyOf
            rw [find?_map_upd, List.find?_append]
            rw [hfind_sing]
            rw [Option.or_none]
            cases hfk : acc.find? (fun p => p.1 = k) with
            | none => simp only [Option.map, Option.getD]
            | some q =>
                have hpq := List.find?_some hfk
                have hq1 : q.1 = k := of_decide_eq_true hpq
                simp only [Option.map]
                rw [if_neg (by rw [hq1]; exact fun h => hkk h.symm)]

theorem keyQty_cons (k : Str) (e : Str × ℚ) (l : List (Str × ℚ)) :
    keyQty k (e :: l) =
      if (entryValid e && decide (entryKey e = k)) = true
      then jsAdd (entryQty e) (keyQty k l) else keyQty k l := by
  unfold keyQty
  rw [List.filter_cons]
  cases hc : (entryValid e && decide (entryKey e = k)) with
  | true =>
      rw [if_pos rfl, if_pos rfl]
      rw [List.map_cons, List.sum_cons]
      rfl
  | false =>
      rw [if_neg Bool.false_ne_true, if_neg Bool.false_ne_true]

theorem qtyOf_foldl (k : Str) : ∀ (l : List (Str × ℚ)) (acc : List (Str × AggVal)),
    qtyOf k (l.foldl aggStep acc) = jsAdd (qtyOf k acc) (keyQty k l) := by
  intro l
  induction l with
  | nil =>
      intro acc
      simp only [List.foldl_nil, keyQty, List.filter_nil, List.map_nil, List.sum_nil]
      rw [show (0 : JSNum) = JSNum.fin 0 from rfl, jsAdd_zero]
  | cons e rest ih =>
      intro acc
      rw [List.foldl_cons, ih, qtyOf_aggStep, keyQty_cons]
      cases hc : (entryValid e && decide (entryKey e = k)) with
      | true =>
          rw [if_pos rfl, if_pos rfl]
          rw [jsAdd_assoc]
      | false =>
          rw [if_neg Bool.false_ne_true, if_neg Bool.false_ne_true]

theorem qtyOf_aggregateItems (k : Str) (l : List (Str × ℚ)) :
    qtyOf k (aggregateItems l) = keyQty k l := by
  unfold aggregateItems
  rw [qtyOf_foldl]
  rw [show qtyOf k [] = JSNum.fin 0 from rfl, jsZero_add]

theorem keyQty_perm (k : Str) {l₁ l₂ : List (Str × ℚ)} (h : l₁.Perm l₂) :
    keyQty k l₁ = keyQty k l₂ := ((h.filter _).map _).sum_eq

theorem validKeys_perm {l₁ l₂ : List (Str × ℚ)} (h : l₁.Perm l₂) :
    (validKeys l₁).Perm (validKeys l₂) := (h.filter _).map _

theorem aggKeys_perm {l₁ l₂ : List (Str × ℚ)} (h : l₁.Perm l₂) :
    ((aggregateItems l₁).map (·.1)).Perm ((aggregateItems l₂).map (·.1)) := by
  refine (List.perm_ext_iff_of_nodup
    (foldl_aggStep_nodup l₁ [] (by simp)) (foldl_aggStep_nodup l₂ [] (by simp))).mpr ?_
  intro a
  rw [foldl_aggStep_mem a l₁ [], foldl_aggStep_mem a l₂ []]
  simp only [List.map_nil, List.not_mem_nil, false_or]
  exact (validKeys_perm h).mem_iff

theorem qtyOf_view (k : Str) (agg : List (Str × AggVal)) :
    (((agg.find? (fun p => p.1 = k)).map (fun p : Str × AggVal => p.2)).getD
        (⟨JSNum.fin 0, [], strOf "other"⟩ : AggVal)).quantity
      = qtyOf k agg := by
  unfold qtyOf
  cases agg.find? (fun p => p.1 = k) <;> rfl

theorem sortedKeys_perm_eq {l₁ l₂ : List (Str × ℚ)} (h : l₁.Perm l₂) :
    List.insertionSort (· ≤ ·) ((aggregateItems l₁).map (·.1)) =
      List.insertionSort (· ≤ ·) ((aggregateItems l₂).map (·.1)) := by
  have hp : (List.insertionSort (· ≤ ·) ((aggregateItems l₁).map (·.1))).Perm
      (List.insertionSort (· ≤ ·) ((aggregateItems l₂).map (·.1))) :=
    ((List.perm_insertionSort _ _).trans (aggKeys_perm h)).trans
      (List.perm_insertionSort _ _).symm
  exact List.eq_of_perm_of_sorted hp
    (List.sorted_insertionSort _ _) (List.sorted_insertionSort _ _)

/-- Claim C1, amended: for any two planData values whose (day, slot) visit
lists are permutations of each other, the generated shopping lists carry
the same item names (in the same sorted order) and the same rounded
quantities; only the adopted unit and category may differ. -/
theorem generateShoppingList_visits_perm (p₁ p₂ : PlanDataS)
    (recipes : List (Str × ShoppingRecipe))
    (hperm : (planVisits p₁).Perm (planVisits p₂)) :
    (generateShoppingList p₁ recipes).map (·.name) =
      (generateShoppingList p₂ recipes).map (·.name) ∧
    (generateShoppingList p₁ recipes).map (fun it => (it.name, it.quantity)) =
      (generateShoppingList p₂ recipes).map (fun it => (it.name, it.quantity)) := by
  have hscaled : (scaledIngredients p₁ recipes).Perm (scaledIngredients p₂ recipes) := by
    rw [scaledIngredients_eq_visits, scaledIngredients_eq_visits]
    exact hperm.flatMap_right _
  have hsorted := sortedKeys_perm_eq hscaled
  have hqty : ∀ kk : Str, qtyOf kk (aggregateItems (scaledIngredients p₁ recipes)) =
      qtyOf kk (aggregateItems (scaledIngredients p₂ recipes)) := fun kk => by
    rw [qtyOf_aggregateItems, qtyOf_aggregateItems]
    exact keyQty_perm kk hscaled
  constructor
  · simp only [generateShoppingList]
    rw [hsorted]
    rw [List.map_map, List.map_map]
    apply List.map_congr_left
    intro kk _
    simp only [Function.comp_apply]
  · simp only [generateShoppingList]
    rw [hsorted]
    rw [List.map_map, List.map_map]
    apply List.map_congr_left
    intro kk _
    simp only [Function.comp_apply]
    rw [qtyOf_view kk (aggregateItems (scaledIngredients p₁ recipes))]
    rw [qtyOf_view kk (aggregateItems (scaledIngredients p₂ recipes))]
    rw [hqty kk]

/-- Claim C1 (P7) as stated is false: the aggregation adopts the first
non-empty unit seen (and the first specific category seen), so transposing
two (day, slot) visits whose recipes carry the same ingredient under
different units changes the aggregated unit.  Visiting "1 cup milk" before
"1 oz milk" yields unit "cup"; the transposed order yields "oz", so the two
shopping lists differ even though the visit lists are permutations. -/
theorem generateShoppingList_unit_order_dependent :
    (planVisits milkPlanA).Perm (planVisits milkPlanB) ∧
    (generateShoppingList milkPlanA milkRecipes).map (·.unit) = [strOf "cup"] ∧
    (generateShoppingList milkPlanB milkRecipes).map (·.unit) = [strOf "oz"] ∧
    generateShoppingList milkPlanA milkRecipes ≠
      generateShoppingList milkPlanB milkRecipes := by
  with_unfolding_all decide

/-- Witness for the amended claim C1 at the two milk plans. -/
theorem generateShoppingList_visits_perm_witness :
    (planVisits milkPlanA).Perm (planVisits milkPlanB) ∧
    (generateShoppingList milkPlanA milkRecipes).map (·.name) =
      (generateShoppingList milkPlanB milkRecipes).map (·.name) :=
  ⟨by decide,
   (generateShoppingList_visits_perm milkPlanA milkPlanB milkRecipes (by decide)).1⟩
